import Mathlib

/-!
Verification of the SQuAD-to-BERT feature pipeline in
`scripts/bert_SQuAD/dataset.py` (gluon-nlp).

The Python source is shallowly embedded: text is `List Char`, tokens are
`List (List Char)`, Python `int` is `Int`, fallible code returns
`Except String`.  Python-specific indexing (negative-index wrap-around,
clamping slices) is modelled explicitly by `pyGet` and `pySlice`.
Loops whose termination is not structural carry an explicit fuel
argument; `none`/fuel exhaustion models a loop that is still running.
-/

set_option maxHeartbeats 1000000

namespace SquadData

/-- Python list subscript `xs[i]`: negative indices wrap around once;
an index that is still out of range raises `IndexError` (here: `none`). -/
def pyGet (xs : List α) (i : Int) : Option α :=
  let j : Int := if i < 0 then i + xs.length else i
  if 0 ≤ j then xs.get? j.toNat else none

/-- Clamp one endpoint of a Python slice to `[0, n]`, wrapping a negative
index once, exactly as CPython does for `xs[a:b]`. -/
def pySliceIdx (n i : Int) : Int :=
  if i < 0 then max (i + n) 0 else min i n

/-- Python slice `xs[a:b]` (step 1): endpoints wrap and clamp, never raising. -/
def pySlice (xs : List α) (a b : Int) : List α :=
  let n : Int := xs.length
  ((xs.take (pySliceIdx n b).toNat).drop (pySliceIdx n a).toNat)

/-! ## Window Splitter

Lines 304-315 of `dataset.py`:

    doc_spans = []
    start_offset = 0
    while start_offset < len(all_doc_tokens):
        length = len(all_doc_tokens) - start_offset
        if length > max_tokens_for_doc:
            length = max_tokens_for_doc
        doc_spans.append(_DocSpan(start=start_offset, length=length))
        if start_offset + length == len(all_doc_tokens):
            break
        start_offset += min(length, self.doc_stride)

`fuel` bounds the number of loop iterations; `none` means the loop was
still running when the fuel ran out (and, with the fuel used by
`docSpans`, that the Python loop never terminates). -/
def docSpansAux (N mtd stride : Int) : Nat → Int → Option (List (Int × Int))
  | 0, _ => none
  | fuel + 1, start =>
    if start < N then
      let len := min (N - start) mtd
      if start + len = N then some [(start, len)]
      else
        match docSpansAux N mtd stride fuel (start + min len stride) with
        | none => none
        | some rest => some ((start, len) :: rest)
    else some []

/-- The window splitter on a document of `N` sub-tokens.  The loop runs at
most `N` iterations whenever it terminates at all (proved below), so fuel
`N.toNat + 1` is enough; a `none` result means the Python loop diverges. -/
def docSpans (N mtd stride : Int) : Option (List (Int × Int)) :=
  docSpansAux N mtd stride (N.toNat + 1) 0

/-- Invariant of the window-splitter loop: starting from any in-range
offset with enough fuel, the loop yields a nonempty span list that covers
`[start, N)`, stays inside `[start, N]`, has its last window ending at
`N`, and takes at most `N - start` iterations. -/
theorem docSpansAux_spec (N mtd stride : Int) (hmtd : 1 ≤ mtd) (hstr : 1 ≤ stride) :
    ∀ (fuel : Nat) (start : Int), 0 ≤ start → start < N → N ≤ start + fuel →
    ∃ spans, docSpansAux N mtd stride fuel start = some spans ∧
      spans ≠ [] ∧
      spans.length ≤ (N - start).toNat ∧
      (∀ p : Int, start ≤ p → p < N → ∃ sp ∈ spans, sp.1 ≤ p ∧ p < sp.1 + sp.2) ∧
      (∀ sp ∈ spans, start ≤ sp.1 ∧ 1 ≤ sp.2 ∧ sp.1 + sp.2 ≤ N) ∧
      (∃ lastSp, spans.getLast? = some lastSp ∧ lastSp.1 + lastSp.2 = N) := by
  intro fuel
  induction fuel with
  | zero =>
    intro start h0 hlt hfuel
    exfalso
    simp only [Nat.cast_zero, add_zero] at hfuel
    omega
  | succ n ih =>
    intro start h0 hlt hfuel
    have hlen1 : 1 ≤ min (N - start) mtd := le_min (by omega) hmtd
    by_cases hbrk : start + min (N - start) mtd = N
    · refine ⟨[(start, min (N - start) mtd)], ?_, by simp, ?_, ?_, ?_, ?_⟩
      · simp only [docSpansAux, if_pos hlt, if_pos hbrk]
      · simp only [List.length_singleton]
        omega
      · intro p hp1 hp2
        exact ⟨(start, min (N - start) mtd), by simp, hp1, by omega⟩
      · intro sp hsp
        simp only [List.mem_singleton] at hsp
        subst hsp
        exact ⟨le_refl _, hlen1, by omega⟩
      · exact ⟨(start, min (N - start) mtd), by simp, hbrk⟩
    · have hmlt : mtd < N - start := by
        rcases le_or_lt (N - start) mtd with h | h
        · exfalso; rw [min_eq_left h] at hbrk; omega
        · exact h
      have hlen : min (N - start) mtd = mtd := min_eq_right (le_of_lt hmlt)
      have hstep1 : 1 ≤ min (min (N - start) mtd) stride := le_min hlen1 hstr
      have hstepm : min (min (N - start) mtd) stride ≤ mtd := by
        rw [hlen]; exact min_le_left _ _
      set start' := start + min (min (N - start) mtd) stride with hstart'
      have h0' : 0 ≤ start' := by omega
      have hlt' : start' < N := by omega
      have hfuel' : N ≤ start' + n := by
        push_cast at hfuel ⊢
        omega
      obtain ⟨rest, hrest, hne, hcnt, hcov, hbnd, lastSp, hlast, hlastN⟩ :=
        ih start' h0' hlt' hfuel'
      refine ⟨(start, min (N - start) mtd) :: rest, ?_, by simp, ?_, ?_, ?_, ?_⟩
      · simp only [docSpansAux, if_pos hlt, if_neg hbrk, hrest]
      · simp only [List.length_cons]
        have : (N - start').toNat + 1 ≤ (N - start).toNat := by omega
        omega
      · intro p hp1 hp2
        by_cases hp : p < start + min (N - start) mtd
        · exact ⟨(start, min (N - start) mtd), by simp, hp1, hp⟩
        · have hp' : start' ≤ p := by
            have : min (min (N - start) mtd) stride ≤ min (N - start) mtd :=
              min_le_left _ _
            omega
          obtain ⟨sp, hsp, h1, h2⟩ := hcov p hp' hp2
          exact ⟨sp, List.mem_cons_of_mem _ hsp, h1, h2⟩
      · intro sp hsp
        rcases List.mem_cons.mp hsp with h | h
        · subst h; exact ⟨le_refl _, hlen1, by omega⟩
        · obtain ⟨b1, b2, b3⟩ := hbnd sp h
          exact ⟨by omega, b2, b3⟩
      · refine ⟨lastSp, ?_, hlastN⟩
        cases rest with
        | nil => exact absurd rfl hne
        | cons b bs => rw [List.getLast?_cons_cons]; exact hlast

/-- Claim C2: for every sub-token count `N ≥ 1`, `max_tokens_for_doc ≥ 1`
and `doc_stride ≥ 1`, the window splitter terminates and its windows lie
within `[0, N)`, fully cover `[0, N)` with no gaps, and the final window
ends exactly at `N` (last covered index `N - 1`). -/
theorem window_splitter_coverage (N mtd stride : Int)
    (hN : 1 ≤ N) (hmtd : 1 ≤ mtd) (hstr : 1 ≤ stride) :
    ∃ spans, docSpans N mtd stride = some spans ∧
      (∀ sp ∈ spans, 0 ≤ sp.1 ∧ 1 ≤ sp.2 ∧ sp.1 + sp.2 ≤ N) ∧
      (∀ p : Int, 0 ≤ p → p < N → ∃ sp ∈ spans, sp.1 ≤ p ∧ p < sp.1 + sp.2) ∧
      (∃ lastSp, spans.getLast? = some lastSp ∧ lastSp.1 + lastSp.2 = N) := by
  obtain ⟨spans, heq, _, _, hcov, hbnd, hlast⟩ :=
    docSpansAux_spec N mtd stride hmtd hstr (N.toNat + 1) 0 le_rfl (by omega) (by omega)
  exact ⟨spans, heq, hbnd, hcov, hlast⟩

/-- Claim C2 witness: the splitter on `N = 5`, `max_tokens_for_doc = 2`,
`doc_stride = 2`. -/
theorem window_splitter_coverage_witness :
    ∃ spans, docSpans 5 2 2 = some spans ∧
      (∀ sp ∈ spans, 0 ≤ sp.1 ∧ 1 ≤ sp.2 ∧ sp.1 + sp.2 ≤ 5) ∧
      (∀ p : Int, 0 ≤ p → p < 5 → ∃ sp ∈ spans, sp.1 ≤ p ∧ p < sp.1 + sp.2) ∧
      (∃ lastSp, spans.getLast? = some lastSp ∧ lastSp.1 + lastSp.2 = 5) :=
  window_splitter_coverage 5 2 2 (by decide) (by decide) (by decide)

/-- Claim C9: under the same preconditions the splitter loop terminates in
at most `N` iterations: fuel `N` already suffices, and the list of emitted
windows (one per iteration) has length at most `N`. -/
theorem window_splitter_iterations (N mtd stride : Int)
    (hN : 1 ≤ N) (hmtd : 1 ≤ mtd) (hstr : 1 ≤ stride) :
    (∃ spans, docSpansAux N mtd stride N.toNat 0 = some spans ∧ spans.length ≤ N.toNat) ∧
    (∀ spans, docSpans N mtd stride = some spans → spans.length ≤ N.toNat) := by
  constructor
  · obtain ⟨spans, heq, _, hcnt, _, _, _⟩ :=
      docSpansAux_spec N mtd stride hmtd hstr N.toNat 0 le_rfl (by omega) (by omega)
    exact ⟨spans, heq, by simpa using hcnt⟩
  · intro spans hspans
    obtain ⟨spans', heq, _, hcnt, _, _, _⟩ :=
      docSpansAux_spec N mtd stride hmtd hstr (N.toNat + 1) 0 le_rfl (by omega) (by omega)
    rw [docSpans, heq] at hspans
    cases hspans
    simpa using hcnt

/-- Claim C9 witness: iteration bound at `N = 5`, `max_tokens_for_doc = 2`,
`doc_stride = 2`. -/
theorem window_splitter_iterations_witness :
    (∃ spans, docSpansAux 5 2 2 (5 : Int).toNat 0 = some spans ∧
        spans.length ≤ (5 : Int).toNat) ∧
    (∀ spans, docSpans 5 2 2 = some spans → spans.length ≤ (5 : Int).toNat) :=
  window_splitter_iterations 5 2 2 (by decide) (by decide) (by decide)

/-- Claim C7: when `max_tokens_for_doc < 1` and the document is nonempty,
the code performs no configuration check at all: the window loop emits a
zero- or negative-length window, the start offset never advances past 0,
and the loop never terminates (it returns `none` for every fuel). -/
theorem splitter_diverges_on_bad_config (N mtd stride : Int)
    (hN : 1 ≤ N) (hmtd : mtd ≤ 0) (hstr : 0 ≤ stride) :
    ∀ (fuel : Nat) (start : Int), start ≤ 0 →
      docSpansAux N mtd stride fuel start = none := by
  intro fuel
  induction fuel with
  | zero => intro start _; rfl
  | succ n ih =>
    intro start hstart
    have hlt : start < N := by omega
    have hlen : min (N - start) mtd = mtd := min_eq_right (by omega)
    have hbrk : ¬(start + min (N - start) mtd = N) := by rw [hlen]; omega
    have hadv : min (min (N - start) mtd) stride = mtd := by
      rw [hlen]; exact min_eq_left (by omega)
    simp only [docSpansAux, if_pos hlt, if_neg hbrk, hadv, ih (start + mtd) (by omega)]

/-- Claim C7 witness: with `N = 1`, `max_tokens_for_doc = -1`,
`doc_stride = 1`, five loop iterations have still not terminated. -/
theorem splitter_diverges_on_bad_config_witness :
    docSpansAux 1 (-1) 1 5 0 = none :=
  splitter_diverges_on_bad_config 1 (-1) 1 (by decide) (by decide) (by decide) 5 0
    (by decide)

/-! ## Max-Context Resolver

Lines 458-493 of `dataset.py` (`_check_is_max_context`). -/

/-- A window `(start, length)` contains position `p` when
`start ≤ p ≤ start + length - 1`; lines 481-484 skip the window otherwise. -/
def spanContains (sp : Int × Int) (p : Int) : Prop :=
  sp.1 ≤ p ∧ p ≤ sp.1 + sp.2 - 1

instance (sp : Int × Int) (p : Int) : Decidable (spanContains sp p) := by
  unfold spanContains; infer_instance

/-- The score of lines 485-488:
`min(num_left_context, num_right_context) + 0.01 * doc_span.length`,
scaled by 100 so that the arithmetic is exact:
`a + 0.01*b > c + 0.01*d ↔ 100*a + b > 100*c + d` over the rationals. -/
def spanScore (sp : Int × Int) (p : Int) : Int :=
  100 * min (p - sp.1) (sp.1 + sp.2 - 1 - p) + sp.2

/-- The scan of lines 477-491: walk the spans in order keeping
`(best_score, best_span_index)`, replacing the best only on a strictly
greater score, and ignoring spans that do not contain `position`. -/
def maxCtxLoop (p : Int) : List (Int × Int) → Nat → Option (Int × Nat) → Option (Int × Nat)
  | [], _, best => best
  | sp :: rest, idx, best =>
    if spanContains sp p then
      maxCtxLoop p rest (idx + 1)
        (match best with
         | none => some (spanScore sp p, idx)
         | some (bs, bi) =>
           if bs < spanScore sp p then some (spanScore sp p, idx) else some (bs, bi))
    else
      maxCtxLoop p rest (idx + 1) best

/-- `_check_is_max_context(doc_spans, cur_span_index, position)`: returns
whether `cur_span_index` equals the best span index (`False` when no span
contains the position, as `index == None` is falsy in Python). -/
def checkIsMaxContext (docSpansList : List (Int × Int)) (curSpanIndex : Nat)
    (position : Int) : Bool :=
  match maxCtxLoop position docSpansList 0 none with
  | none => false
  | some (_, bi) => curSpanIndex == bi

theorem maxCtxLoop_none_iff (p : Int) :
    ∀ (spans : List (Int × Int)) (idx : Nat),
      maxCtxLoop p spans idx none = none ↔ ∀ sp ∈ spans, ¬spanContains sp p := by
  intro spans
  induction spans with
  | nil => intro idx; simp [maxCtxLoop]
  | cons sp rest ih =>
    intro idx
    by_cases hc : spanContains sp p
    · simp only [maxCtxLoop, if_pos hc]
      constructor
      · intro h
        exfalso
        -- an accumulator that is `some` can never become `none`
        have : ∀ (l : List (Int × Int)) (i : Nat) (bs : Int) (bi : Nat),
            maxCtxLoop p l i (some (bs, bi)) ≠ none := by
          intro l
          induction l with
          | nil => intro i bs bi h'; exact Option.noConfusion h'
          | cons sp' rest' ih' =>
            intro i bs bi
            by_cases hc' : spanContains sp' p
            · simp only [maxCtxLoop, if_pos hc']
              split
              · exact ih' _ _ _
              · exact ih' _ _ _
            · simp only [maxCtxLoop, if_neg hc']
              exact ih' _ _ _
        exact this rest (idx + 1) (spanScore sp p) idx h
      · intro h
        exact absurd hc (h sp (List.mem_cons_self sp rest))
    · simp only [maxCtxLoop, if_neg hc, ih (idx + 1)]
      constructor
      · intro h sp' hsp'
        rcases List.mem_cons.mp hsp' with rfl | hmem
        · exact hc
        · exact h sp' hmem
      · intro h sp' hsp'
        exact h sp' (List.mem_cons_of_mem _ hsp')

theorem maxCtxLoop_acc_spec (p : Int) :
    ∀ (spans : List (Int × Int)) (idx : Nat) (bs : Int) (bi : Nat) (bs' : Int) (bi' : Nat),
      maxCtxLoop p spans idx (some (bs, bi)) = some (bs', bi') →
      (bs' = bs ∧ bi' = bi ∧
          ∀ k sp, spans.get? k = some sp → spanContains sp p → spanScore sp p ≤ bs) ∨
      (∃ k sp, spans.get? k = some sp ∧ spanContains sp p ∧
          bs' = spanScore sp p ∧ bi' = idx + k ∧ bs < bs' ∧
          (∀ j sp', spans.get? j = some sp' → spanContains sp' p → spanScore sp' p ≤ bs') ∧
          (∀ j sp', j < k → spans.get? j = some sp' → spanContains sp' p →
            spanScore sp' p < bs')) := by
  intro spans
  induction spans with
  | nil =>
    intro idx bs bi bs' bi' h
    simp only [maxCtxLoop] at h
    injection h with h
    injection h with h1 h2
    exact Or.inl ⟨h1.symm, h2.symm, by intro k sp hk; simp at hk⟩
  | cons sp rest ih =>
    intro idx bs bi bs' bi' h
    by_cases hc : spanContains sp p
    · simp only [maxCtxLoop, if_pos hc] at h
      by_cases hlt : bs < spanScore sp p
      · rw [if_pos hlt] at h
        rcases ih (idx + 1) (spanScore sp p) idx bs' bi' h with
          ⟨h1, h2, h3⟩ | ⟨k, spk, hk, hck, h1, h2, h3, h4, h5⟩
        · refine Or.inr ⟨0, sp, rfl, hc, h1.symm ▸ rfl, by omega, by omega, ?_, ?_⟩
          · intro j sp' hj hcj
            cases j with
            | zero =>
              injection hj with hj; subst hj
              subst h1; exact le_refl _
            | succ j' =>
              subst h1; exact h3 j' sp' hj hcj
          · intro j sp' hj _ _; omega
        · refine Or.inr ⟨k + 1, spk, hk, hck, h1, by omega, by omega, ?_, ?_⟩
          · intro j sp' hj hcj
            cases j with
            | succ j' => exact h4 j' sp' hj hcj
            | zero =>
              injection hj with hj; subst hj
              exact le_of_lt (lt_of_lt_of_le h3 (le_of_eq rfl))
          · intro j sp' hjk hj hcj
            cases j with
            | zero =>
              injection hj with hj; subst hj
              exact h3
            | succ j' => exact h5 j' sp' (by omega) hj hcj
      · rw [if_neg hlt] at h
        push_neg at hlt
        rcases ih (idx + 1) bs bi bs' bi' h with
          ⟨h1, h2, h3⟩ | ⟨k, spk, hk, hck, h1, h2, h3, h4, h5⟩
        · refine Or.inl ⟨h1, h2, ?_⟩
          intro j sp' hj hcj
          cases j with
          | zero => injection hj with hj; subst hj; exact hlt
          | succ j' => exact h3 j' sp' hj hcj
        · refine Or.inr ⟨k + 1, spk, hk, hck, h1, by omega, h3, ?_, ?_⟩
          · intro j sp' hj hcj
            cases j with
            | zero =>
              injection hj with hj; subst hj
              exact le_of_lt (lt_of_le_of_lt hlt h3)
            | succ j' => exact h4 j' sp' hj hcj
          · intro j sp' hjk hj hcj
            cases j with
            | zero =>
              injection hj with hj; subst hj
              exact lt_of_le_of_lt hlt h3
            | succ j' => exact h5 j' sp' (by omega) hj hcj
    · simp only [maxCtxLoop, if_neg hc] at h
      rcases ih (idx + 1) bs bi bs' bi' h with
        ⟨h1, h2, h3⟩ | ⟨k, spk, hk, hck, h1, h2, h3, h4, h5⟩
      · refine Or.inl ⟨h1, h2, ?_⟩
        intro j sp' hj hcj
        cases j with
        | zero => injection hj with hj; subst hj; exact absurd hcj hc
        | succ j' => exact h3 j' sp' hj hcj
      · refine Or.inr ⟨k + 1, spk, hk, hck, h1, by omega, h3, ?_, ?_⟩
        · intro j sp' hj hcj
          cases j with
          | zero => injection hj with hj; subst hj; exact absurd hcj hc
          | succ j' => exact h4 j' sp' hj hcj
        · intro j sp' hjk hj hcj
          cases j with
          | zero => injection hj with hj; subst hj; exact absurd hcj hc
          | succ j' => exact h5 j' sp' (by omega) hj hcj

theorem maxCtxLoop_start_spec (p : Int) :
    ∀ (spans : List (Int × Int)) (idx : Nat) (bs' : Int) (bi' : Nat),
      maxCtxLoop p spans idx none = some (bs', bi') →
      ∃ k sp, spans.get? k = some sp ∧ spanContains sp p ∧
        bs' = spanScore sp p ∧ bi' = idx + k ∧
        (∀ j sp', spans.get? j = some sp' → spanContains sp' p → spanScore sp' p ≤ bs') ∧
        (∀ j sp', j < k → spans.get? j = some sp' → spanContains sp' p →
          spanScore sp' p < bs') := by
  intro spans
  induction spans with
  | nil => intro idx bs' bi' h; simp [maxCtxLoop] at h
  | cons sp rest ih =>
    intro idx bs' bi' h
    by_cases hc : spanContains sp p
    · simp only [maxCtxLoop, if_pos hc] at h
      rcases maxCtxLoop_acc_spec p rest (idx + 1) (spanScore sp p) idx bs' bi' h with
        ⟨h1, h2, h3⟩ | ⟨k, spk, hk, hck, h1, h2, h3, h4, h5⟩
      · refine ⟨0, sp, rfl, hc, h1.symm ▸ rfl, by omega, ?_, ?_⟩
        · intro j sp' hj hcj
          cases j with
          | zero => injection hj with hj; subst hj; subst h1; exact le_refl _
          | succ j' => subst h1; exact h3 j' sp' hj hcj
        · intro j sp' hj _ _; omega
      · refine ⟨k + 1, spk, hk, hck, h1, by omega, ?_, ?_⟩
        · intro j sp' hj hcj
          cases j with
          | zero => injection hj with hj; subst hj; exact le_of_lt h3
          | succ j' => exact h4 j' sp' hj hcj
        · intro j sp' hjk hj hcj
          cases j with
          | zero => injection hj with hj; subst hj; exact h3
          | succ j' => exact h5 j' sp' (by omega) hj hcj
    · simp only [maxCtxLoop, if_neg hc] at h
      obtain ⟨k, spk, hk, hck, h1, h2, h3, h4⟩ := ih (idx + 1) bs' bi' h
      refine ⟨k + 1, spk, hk, hck, h1, by omega, ?_, ?_⟩
      · intro j sp' hj hcj
        cases j with
        | zero => injection hj with hj; subst hj; exact absurd hcj hc
        | succ j' => exact h3 j' sp' hj hcj
      · intro j sp' hjk hj hcj
        cases j with
        | zero => injection hj with hj; subst hj; exact absurd hcj hc
        | succ j' => exact h4 j' sp' (by omega) hj hcj

/-- Claim C1: for every windows list produced by the window splitter and
every position `p` contained in at least one window, exactly one window is
flagged max-context owner by `_check_is_max_context`, namely the window
maximising `min(p - start, end - p) + 0.01 * length` (exact arithmetic,
scaled by 100 in `spanScore`), with the lowest-index window winning ties. -/
theorem max_context_unique_owner (N mtd stride : Int) (spans : List (Int × Int))
    (_hspans : docSpans N mtd stride = some spans)
    (p : Int) (j : Nat) (spj : Int × Int)
    (hj : spans.get? j = some spj) (hcov : spanContains spj p) :
    (∃! i : Nat, i < spans.length ∧ checkIsMaxContext spans i p = true) ∧
    (∀ i : Nat, checkIsMaxContext spans i p = true →
      ∃ spi, spans.get? i = some spi ∧ spanContains spi p ∧
        (∀ k spk, spans.get? k = some spk → spanContains spk p →
          spanScore spk p ≤ spanScore spi p ∧
          (spanScore spk p = spanScore spi p → i ≤ k))) := by
  have hne : maxCtxLoop p spans 0 none ≠ none := by
    rw [Ne, maxCtxLoop_none_iff]
    push_neg
    exact ⟨spj, List.get?_mem hj, hcov⟩
  obtain ⟨bs, bi, hloop⟩ : ∃ bs bi, maxCtxLoop p spans 0 none = some (bs, bi) := by
    cases h : maxCtxLoop p spans 0 none with
    | none => exact absurd h hne
    | some v => exact ⟨v.1, v.2, rfl⟩
  obtain ⟨k, spk, hk, hck, hbs, hbi, hmax, hfirst⟩ :=
    maxCtxLoop_start_spec p spans 0 bs bi hloop
  have hbik : k = bi := by omega
  subst hbik
  have hblen : k < spans.length := (List.get?_eq_some.mp hk).1
  have hflag : ∀ i : Nat, checkIsMaxContext spans i p = true ↔ i = k := by
    intro i
    simp only [checkIsMaxContext, hloop]
    exact beq_iff_eq
  constructor
  · refine ⟨k, ⟨hblen, (hflag k).mpr rfl⟩, ?_⟩
    intro y hy
    exact (hflag y).mp hy.2
  · intro i hi
    have hik : i = k := (hflag i).mp hi
    subst hik
    refine ⟨spk, hk, hck, ?_⟩
    intro m spm hm hcm
    refine ⟨hbs ▸ hmax m spm hm hcm, ?_⟩
    intro heq
    by_contra hlt
    push_neg at hlt
    have := hfirst m spm hlt hm hcm
    omega

/-- Claim C1 witness: splitter output for `N = 5`, `max_tokens_for_doc = 3`,
`doc_stride = 2` is `[(0,3), (2,3)]`; position 2 lies in both windows,
scores tie, and the first window owns it. -/
theorem max_context_unique_owner_witness :
    (∃! i : Nat, i < [((0 : Int), (3 : Int)), (2, 3)].length ∧
        checkIsMaxContext [((0 : Int), (3 : Int)), (2, 3)] i 2 = true) ∧
    (∀ i : Nat, checkIsMaxContext [((0 : Int), (3 : Int)), (2, 3)] i 2 = true →
      ∃ spi, [((0 : Int), (3 : Int)), (2, 3)].get? i = some spi ∧ spanContains spi 2 ∧
        (∀ k spk, [((0 : Int), (3 : Int)), (2, 3)].get? k = some spk →
          spanContains spk 2 →
          spanScore spk 2 ≤ spanScore spi 2 ∧
          (spanScore spk 2 = spanScore spi 2 → i ≤ k))) :=
  max_context_unique_owner 5 3 2 [((0 : Int), (3 : Int)), (2, 3)] (by decide)
    2 0 (0, 3) (by decide) (by decide)

/-! ## Span Aligner

Lines 421-455 of `dataset.py` (`_improve_answer_span`). -/

/-- `' '.join(words)`. -/
def joinWords (ws : List (List Char)) : List Char :=
  List.intercalate [' '] ws

/-- Inner loop of `_improve_answer_span`:
`for new_end in range(input_end, new_start - 1, -1)`, returning the first
`new_end` whose joined slice equals the target.  `fuel` is the remaining
iteration count; callers pass exactly the size of the Python range. -/
def improveInner (doc : List (List Char)) (target : List Char) (s : Int) :
    Nat → Int → Option Int
  | 0, _ => none
  | fuel + 1, e =>
    if e < s then none
    else if joinWords (pySlice doc s (e + 1)) = target then some e
    else improveInner doc target s fuel (e - 1)

/-- Outer loop of `_improve_answer_span`:
`for new_start in range(input_start, input_end + 1)`. -/
def improveOuter (doc : List (List Char)) (target : List Char) (E : Int) :
    Nat → Int → Option (Int × Int)
  | 0, _ => none
  | fuel + 1, s =>
    if E < s then none
    else
      match improveInner doc target s (E + 1 - s).toNat E with
      | some e => some (s, e)
      | none => improveOuter doc target E fuel (s + 1)

/-- `_improve_answer_span(doc_tokens, input_start, input_end, tokenizer,
orig_answer_text)`: joins the tokenized answer with single spaces and
searches the sub-spans of `[input_start, input_end]`, returning the
original span when nothing matches. -/
def improveAnswerSpan (docTokens : List (List Char)) (inputStart inputEnd : Int)
    (tokenize : List Char → List (List Char)) (origAnswerText : List Char) :
    Int × Int :=
  let tokAnswerText := joinWords (tokenize origAnswerText)
  match improveOuter docTokens tokAnswerText inputEnd
      (inputEnd + 1 - inputStart).toNat inputStart with
  | some (s, e) => (s, e)
  | none => (inputStart, inputEnd)

/-- The sub-spans `[s, e]` of `[S, E]` in the search order stated by the
spec: `s` ascending from `S`, and for each `s`, `e` descending from `E`
down to `s`. -/
def improveCandidates (S E : Int) : List (Int × Int) :=
  (List.range (E + 1 - S).toNat).flatMap fun i : Nat =>
    (List.range (E + 1 - (S + (i : Int))).toNat).map
      fun k : Nat => (S + (i : Int), E - (k : Int))

/-- Modelled from the spec (§4.3 / claim C5): tokenize the answer, join
with single spaces into a target, scan the candidate sub-spans in the
stated order, return the first whose joined sub-tokens equal the target,
and return the input span unchanged when none matches. -/
def improveAnswerSpanSpec (docTokens : List (List Char)) (inputStart inputEnd : Int)
    (tokenize : List Char → List (List Char)) (origAnswerText : List Char) :
    Int × Int :=
  let target := joinWords (tokenize origAnswerText)
  match (improveCandidates inputStart inputEnd).find?
      (fun se => decide (joinWords (pySlice docTokens se.1 (se.2 + 1)) = target)) with
  | some se => se
  | none => (inputStart, inputEnd)

theorem improveInner_eq_find (doc : List (List Char)) (target : List Char) (s : Int) :
    ∀ (fuel : Nat) (e : Int), (e + 1 - s).toNat ≤ fuel →
      improveInner doc target s fuel e =
        ((List.range (e + 1 - s).toNat).map (fun k : Nat => e - (k : Int))).find?
          (fun e' => decide (joinWords (pySlice doc s (e' + 1)) = target)) := by
  intro fuel
  induction fuel with
  | zero =>
    intro e hfe
    have h0 : (e + 1 - s).toNat = 0 := Nat.le_zero.mp hfe
    rw [h0]
    simp [improveInner]
  | succ n ih =>
    intro e hfe
    by_cases hes : e < s
    · have h0 : (e + 1 - s).toNat = 0 := by omega
      rw [h0]
      simp [improveInner, hes]
    · have hn : (e + 1 - s).toNat = (e - s).toNat + 1 := by omega
      rw [hn, List.range_succ_eq_map]
      simp only [List.map_cons, List.map_map, Nat.cast_zero, sub_zero]
      by_cases hmatch : joinWords (pySlice doc s (e + 1)) = target
      · rw [List.find?_cons_of_pos _ (by simpa using hmatch)]
        simp only [improveInner, if_neg hes, if_pos hmatch]
      · rw [List.find?_cons_of_neg _ (by simpa using hmatch)]
        have hrec : improveInner doc target s (n + 1) e =
            improveInner doc target s n (e - 1) := by
          simp only [improveInner, if_neg hes, if_neg hmatch]
        rw [hrec, ih (e - 1) (by omega)]
        have h1 : (e - 1 + 1 - s).toNat = (e - s).toNat := by omega
        rw [h1]
        have hfun : ((fun k : Nat => e - (k : Int)) ∘ Nat.succ) =
            fun k : Nat => e - 1 - (k : Int) := by
          funext k
          simp only [Function.comp_apply]
          push_cast
          ring
        rw [hfun]

theorem improveOuter_eq_find (doc : List (List Char)) (target : List Char) (E : Int) :
    ∀ (fuel : Nat) (s : Int), (E + 1 - s).toNat ≤ fuel →
      improveOuter doc target E fuel s =
        (improveCandidates s E).find?
          (fun se => decide (joinWords (pySlice doc se.1 (se.2 + 1)) = target)) := by
  intro fuel
  induction fuel with
  | zero =>
    intro s hfe
    have h0 : (E + 1 - s).toNat = 0 := Nat.le_zero.mp hfe
    simp [improveOuter, improveCandidates, h0]
  | succ n ih =>
    intro s hfe
    by_cases hEs : E < s
    · have h0 : (E + 1 - s).toNat = 0 := by omega
      simp [improveOuter, improveCandidates, h0, hEs]
    · have hn : (E + 1 - s).toNat = (E - s).toNat + 1 := by omega
      have hsplit : improveCandidates s E =
          ((List.range (E + 1 - s).toNat).map (fun k : Nat => (s, E - (k : Int)))) ++
            improveCandidates (s + 1) E := by
        conv_lhs => rw [improveCandidates, hn, List.range_succ_eq_map, List.flatMap_cons]
        congr 1
        · rw [Nat.cast_zero, add_zero]
        · rw [improveCandidates, List.flatMap_map]
          have h0 : (E + 1 - (s + 1)).toNat = (E - s).toNat := by omega
          rw [h0]
          apply List.flatMap_congr
          intro i _
          have h1 : s + ((Nat.succ i : Nat) : Int) = s + 1 + (i : Int) := by
            push_cast; ring
          rw [h1]
      rw [hsplit, List.find?_append]
      have hpairfind :
          ((List.range (E + 1 - s).toNat).map (fun k : Nat => (s, E - (k : Int)))).find?
              (fun se => decide (joinWords (pySlice doc se.1 (se.2 + 1)) = target)) =
            (((List.range (E + 1 - s).toNat).map (fun k : Nat => E - (k : Int))).find?
              (fun e' => decide (joinWords (pySlice doc s (e' + 1)) = target))).map
              (fun e => (s, e)) := by
        have hmm : (List.range (E + 1 - s).toNat).map (fun k : Nat => (s, E - (k : Int))) =
            ((List.range (E + 1 - s).toNat).map (fun k : Nat => E - (k : Int))).map
              (fun e => (s, e)) := by
          rw [List.map_map]
          rfl
        rw [hmm, List.find?_map]
        rfl
      rw [hpairfind, ← improveInner_eq_find doc target s (E + 1 - s).toNat E le_rfl]
      simp only [improveOuter, if_neg hEs]
      cases hinner : improveInner doc target s (E + 1 - s).toNat E with
      | some e => simp
      | none =>
        simp only [Option.map_none']
        exact ih (s + 1) (by omega)

/-- Claim C5: `_improve_answer_span` tokenizes the answer text and joins
it with single spaces as target, enumerates sub-spans `[s, e]` with
`input_start ≤ s ≤ e ≤ input_end`, `s` ascending and `e` descending from
`input_end`, returns the first sub-span whose space-joined sub-tokens
equal the target exactly, and returns `[input_start, input_end]`
unchanged when no sub-span matches — that is, it equals the
literally-by-the-spec search `improveAnswerSpanSpec` on every input. -/
theorem improve_answer_span_first_match (doc : List (List Char))
    (tokenize : List Char → List (List Char)) (ans : List Char) (S E : Int) :
    improveAnswerSpan doc S E tokenize ans = improveAnswerSpanSpec doc S E tokenize ans := by
  rw [improveAnswerSpan, improveAnswerSpanSpec,
    improveOuter_eq_find doc (joinWords (tokenize ans)) E (E + 1 - S).toNat S le_rfl]
  cases hf : (improveCandidates S E).find?
      (fun se => decide (joinWords (pySlice doc se.1 (se.2 + 1)) = joinWords (tokenize ans))) with
  | none => rfl
  | some se => obtain ⟨a, b⟩ := se; rfl

/-! ## The transform pipeline (`SQuADTransform._transform`, lines 265-392)

Text is `List Char`, sub-tokens are `List Char`, the external tokenizer
capability is a parameter `tokenize : List Char → List (List Char)`, and
`convert_tokens_to_ids` is a per-token vocabulary lookup
`tokId : List Char → Int` applied with `map`. -/

/-- `SquadExample` (lines 26-48).  Label fields that hold Python `None`
outside training mode are `Option`s. -/
structure SquadExample where
  qasId : List Char
  questionText : List Char
  docTokens : List (List Char)
  exampleId : Nat
  origAnswerText : Option (List Char)
  startPosition : Option Int
  endPosition : Option Int
  isImpossible : Bool
deriving DecidableEq

/-- `SquadFeature` (lines 76-103).  The two per-position dicts are kept as
insertion-ordered association lists. -/
structure SquadFeature where
  exampleId : Nat
  qasId : List Char
  docTokens : List (List Char)
  docSpanIndex : Nat
  tokens : List (List Char)
  tokenToOrigMap : List (Nat × Nat)
  tokenIsMaxContext : List (Nat × Bool)
  inputIds : List Int
  validLength : Nat
  segmentIds : List Nat
  startPosition : Int
  endPosition : Int
  isImpossible : Bool
deriving DecidableEq

/-- Lines 267-270: tokenize the question and truncate to
`max_query_length`. -/
def truncatedQuery (tokenize : List Char → List (List Char))
    (maxQueryLength : Nat) (questionText : List Char) : List (List Char) :=
  let q := tokenize questionText
  if q.length > maxQueryLength then q.take maxQueryLength else q

/-- Lines 272-280: accumulate `tok_to_orig_index`, `orig_to_tok_index`
and `all_doc_tokens` over the document words. -/
def buildDocMapsAux (tokenize : List Char → List (List Char)) :
    List (List Char) → Nat → List Nat → List Nat → List (List Char) →
    List Nat × List Nat × List (List Char)
  | [], _, t2o, o2t, all => (t2o, o2t, all)
  | w :: ws, i, t2o, o2t, all =>
    let subs := tokenize w
    buildDocMapsAux tokenize ws (i + 1) (t2o ++ subs.map fun _ => i)
      (o2t ++ [all.length]) (all ++ subs)

def buildDocMaps (tokenize : List Char → List (List Char))
    (docTokens : List (List Char)) : List Nat × List Nat × List (List Char) :=
  buildDocMapsAux tokenize docTokens 0 [] [] []

/-- Lines 282-296: `(tok_start_position, tok_end_position)`, refined by
`_improve_answer_span`; `none` models the `None` pair outside training
mode.  Reading a `None` field as an index or comparing it raises in
Python, modelled as an error. -/
def tokPositions (tokenize : List Char → List (List Char)) (isTraining : Bool)
    (ex : SquadExample) (o2t : List Nat) (allDocTokens : List (List Char)) :
    Except String (Option (Int × Int)) :=
  if isTraining && ex.isImpossible then Except.ok (some (-1, -1))
  else if isTraining && !ex.isImpossible then
    match ex.startPosition, ex.endPosition, ex.origAnswerText with
    | some sp, some ep, some ans =>
      match pyGet o2t sp with
      | none => Except.error "IndexError: orig_to_tok_index[start_position]"
      | some ts0 =>
        match
          (if ep < (ex.docTokens.length : Int) - 1 then
            match pyGet o2t (ep + 1) with
            | none => Except.error "IndexError: orig_to_tok_index[end_position + 1]"
            | some v => Except.ok ((v : Int) - 1)
          else Except.ok ((allDocTokens.length : Int) - 1) : Except String Int)
        with
        | Except.error msg => Except.error msg
        | Except.ok te0 =>
          Except.ok (some (improveAnswerSpan allDocTokens (ts0 : Int) te0 tokenize ans))
    | _, _, _ => Except.error "TypeError: None label in training mode"
  else Except.ok none

/-- `'[CLS]'`. -/
def clsTok : List Char := ['[', 'C', 'L', 'S', ']']

/-- `'[SEP]'`. -/
def sepTok : List Char := ['[', 'S', 'E', 'P', ']']

/-- Lines 330-339: the per-window document loop, appending the window's
sub-tokens together with `token_to_orig_map`, `token_is_max_context` and
the segment-1 ids. -/
def featureDocLoop (t2o : List Nat) (allDocTokens : List (List Char))
    (spans : List (Int × Int)) (spanIndex : Nat) (spanStart : Int) :
    List Nat →
    List (List Char) × List (Nat × Nat) × List (Nat × Bool) × List Nat →
    Except String (List (List Char) × List (Nat × Nat) × List (Nat × Bool) × List Nat)
  | [], acc => Except.ok acc
  | i :: rest, (toks, t2oMap, mcMap, segs) =>
    let sidx : Int := spanStart + (i : Int)
    match pyGet t2o sidx, pyGet allDocTokens sidx with
    | some origIdx, some tok =>
      featureDocLoop t2o allDocTokens spans spanIndex spanStart rest
        (toks ++ [tok], t2oMap ++ [(toks.length, origIdx)],
          mcMap ++ [(toks.length, checkIsMaxContext spans spanIndex sidx)],
          segs ++ [1])
    | _, _ => Except.error "IndexError: document sub-token"

/-- Lines 317-391: assemble one `SquadFeature` for one window (the spec's
Feature Assembler). -/
def mkFeature (tokId : List Char → Int) (maxSeqLength : Nat)
    (queryTokens : List (List Char)) (t2o : List Nat)
    (allDocTokens : List (List Char)) (spans : List (Int × Int))
    (isTraining : Bool) (tokPos : Option (Int × Int)) (ex : SquadExample)
    (spanIndex : Nat) (docSpan : Int × Int) : Except String SquadFeature :=
  match featureDocLoop t2o allDocTokens spans spanIndex docSpan.1
      (List.range docSpan.2.toNat)
      (clsTok :: (queryTokens ++ [sepTok]), [], [],
        List.replicate (queryTokens.length + 2) 0) with
  | Except.error msg => Except.error msg
  | Except.ok (toks1, t2oMap, mcMap, segs1) =>
    let tokens := toks1 ++ [sepTok]
    let segmentIds0 := segs1 ++ [1]
    let inputIds0 := tokens.map tokId
    let validLength := inputIds0.length
    let padLen := maxSeqLength - inputIds0.length
    let inputIds := inputIds0 ++ List.replicate padLen 0
    let segmentIds := segmentIds0 ++ List.replicate padLen 0
    if inputIds.length ≠ maxSeqLength then Except.error "AssertionError"
    else if segmentIds.length ≠ maxSeqLength then Except.error "AssertionError"
    else
      match
        (if isTraining && !ex.isImpossible then
          match tokPos with
          | some tste =>
            if ¬(tste.1 ≥ docSpan.1 ∧ tste.2 ≤ docSpan.1 + docSpan.2 - 1) then
              Except.ok ((0 : Int), (0 : Int))
            else
              Except.ok (tste.1 - docSpan.1 + (queryTokens.length + 2),
                tste.2 - docSpan.1 + (queryTokens.length + 2))
          | none => Except.error "TypeError: None tok position"
        else Except.ok ((0 : Int), (0 : Int)) : Except String (Int × Int))
      with
      | Except.error msg => Except.error msg
      | Except.ok se =>
        let finalSE := if isTraining && ex.isImpossible then ((0 : Int), (0 : Int)) else se
        Except.ok
          { exampleId := ex.exampleId, qasId := ex.qasId, docTokens := ex.docTokens,
            docSpanIndex := spanIndex, tokens := tokens, tokenToOrigMap := t2oMap,
            tokenIsMaxContext := mcMap, inputIds := inputIds,
            validLength := validLength, segmentIds := segmentIds,
            startPosition := finalSE.1, endPosition := finalSE.2,
            isImpossible := ex.isImpossible }

/-- Error-propagating map, in order, stopping at the first error — the
`for (doc_span_index, doc_span) in enumerate(doc_spans)` loop building
`features`. -/
def exceptMap {α β : Type} (f : α → Except String β) : List α → Except String (List β)
  | [] => Except.ok []
  | x :: xs =>
    match f x with
    | Except.error msg => Except.error msg
    | Except.ok y =>
      match exceptMap f xs with
      | Except.error msg => Except.error msg
      | Except.ok ys => Except.ok (y :: ys)

/-- `SQuADTransform._transform` (lines 265-392).  A `none` from
`docSpans` (the Python loop failing to terminate) surfaces as an error. -/
def transform (tokenize : List Char → List (List Char)) (tokId : List Char → Int)
    (maxSeqLength docStride maxQueryLength : Nat) (isTraining : Bool)
    (ex : SquadExample) : Except String (List SquadFeature) :=
  let queryTokens := truncatedQuery tokenize maxQueryLength ex.questionText
  let maps := buildDocMaps tokenize ex.docTokens
  match tokPositions tokenize isTraining ex maps.2.1 maps.2.2 with
  | Except.error msg => Except.error msg
  | Except.ok tokPos =>
    match docSpans ((maps.2.2).length : Int)
        ((maxSeqLength : Int) - queryTokens.length - 3) (docStride : Int) with
    | none => Except.error "window-splitter loop does not terminate"
    | some spans =>
      exceptMap
        (fun ispan =>
          mkFeature tokId maxSeqLength queryTokens maps.1 maps.2.2 spans isTraining
            tokPos ex ispan.1 ispan.2)
        spans.enum

theorem exceptMap_ok_get {α β : Type} (f : α → Except String β) :
    ∀ (l : List α) (ys : List β), exceptMap f l = Except.ok ys →
      ys.length = l.length ∧
      ∀ (k : Nat) (y : β), ys.get? k = some y →
        ∃ x, l.get? k = some x ∧ f x = Except.ok y := by
  intro l
  induction l with
  | nil =>
    intro ys h
    simp only [exceptMap] at h
    cases h
    exact ⟨rfl, by intro k y hy; simp at hy⟩
  | cons x xs ih =>
    intro ys h
    simp only [exceptMap] at h
    cases hx : f x with
    | error msg => rw [hx] at h; exact absurd h (by simp)
    | ok y =>
      rw [hx] at h
      cases hxs : exceptMap f xs with
      | error msg => rw [hxs] at h; exact absurd h (by simp)
      | ok ys' =>
        rw [hxs] at h
        cases h
        obtain ⟨hlen, hget⟩ := ih ys' hxs
        refine ⟨by simp [hlen], ?_⟩
        intro k y' hy'
        cases k with
        | zero =>
          simp only [List.get?] at hy' ⊢
          cases hy'
          exact ⟨x, rfl, hx⟩
        | succ k' =>
          simp only [List.get?] at hy' ⊢
          exact hget k' y' hy'

theorem exceptMap_error_mem {α β : Type} (f : α → Except String β) :
    ∀ (l : List α) (msg : String), exceptMap f l = Except.error msg →
      ∃ x ∈ l, f x = Except.error msg := by
  intro l
  induction l with
  | nil => intro msg h; simp [exceptMap] at h
  | cons x xs ih =>
    intro msg h
    simp only [exceptMap] at h
    cases hx : f x with
    | error m =>
      rw [hx] at h
      cases h
      exact ⟨x, List.mem_cons_self x xs, hx⟩
    | ok y =>
      rw [hx] at h
      cases hxs : exceptMap f xs with
      | error m =>
        rw [hxs] at h
        injection h with h
        subst h
        obtain ⟨x', hx', hfx'⟩ := ih _ hxs
        exact ⟨x', List.mem_cons_of_mem _ hx', hfx'⟩
      | ok ys => rw [hxs] at h; exact absurd h (by simp)

/-- Every emitted window has `length = min(N - start, max_tokens_for_doc)`
for a start offset `< N` — true for any parameters for which the loop
terminates. -/
theorem docSpansAux_mem (N mtd stride : Int) :
    ∀ (fuel : Nat) (start : Int) (spans : List (Int × Int)),
      docSpansAux N mtd stride fuel start = some spans →
      ∀ sp ∈ spans, sp.2 = min (N - sp.1) mtd ∧ sp.1 < N := by
  intro fuel
  induction fuel with
  | zero => intro start spans h; exact absurd h (by simp [docSpansAux])
  | succ n ih =>
    intro start spans h
    simp only [docSpansAux] at h
    by_cases hlt : start < N
    · rw [if_pos hlt] at h
      by_cases hbrk : start + min (N - start) mtd = N
      · rw [if_pos hbrk] at h
        cases h
        intro sp hsp
        simp only [List.mem_singleton] at hsp
        subst hsp
        exact ⟨rfl, hlt⟩
      · rw [if_neg hbrk] at h
        cases hrec : docSpansAux N mtd stride n (start + min (min (N - start) mtd) stride) with
        | none => rw [hrec] at h; exact absurd h (by simp)
        | some rest =>
          rw [hrec] at h
          cases h
          intro sp hsp
          rcases List.mem_cons.mp hsp with rfl | hmem
          · exact ⟨rfl, hlt⟩
          · exact ih _ rest hrec sp hmem
    · rw [if_neg hlt] at h
      cases h
      intro sp hsp
      simp at hsp

theorem featureDocLoop_spec (t2o : List Nat) (allDocTokens : List (List Char))
    (spans : List (Int × Int)) (spanIndex : Nat) (spanStart : Int) :
    ∀ (idxs : List Nat) acc res,
      featureDocLoop t2o allDocTokens spans spanIndex spanStart idxs acc = Except.ok res →
      res.1.length = acc.1.length + idxs.length ∧
      res.2.2.2 = acc.2.2.2 ++ List.replicate idxs.length (1 : Nat) := by
  intro idxs
  induction idxs with
  | nil =>
    intro acc res h
    simp only [featureDocLoop] at h
    cases h
    simp
  | cons i rest ih =>
    intro acc res h
    obtain ⟨toks, t2oMap, mcMap, segs⟩ := acc
    simp only [featureDocLoop] at h
    cases hg1 : pyGet t2o (spanStart + (i : Int)) with
    | none => rw [hg1] at h; exact absurd h (by simp)
    | some origIdx =>
      cases hg2 : pyGet allDocTokens (spanStart + (i : Int)) with
      | none => rw [hg1, hg2] at h; exact absurd h (by simp)
      | some tok =>
        rw [hg1, hg2] at h
        obtain ⟨h1, h2⟩ := ih _ _ h
        constructor
        · simp only [List.length_append, List.length_singleton] at h1
          simp only [List.length_cons]
          omega
        · rw [h2]
          simp [List.append_assoc, List.replicate_succ, List.length_cons]

/-- Claim C10: an example whose document yields an empty sub-token
sequence, and which is not a labelled answerable training example,
produces zero windows and an empty feature list with no error. -/
theorem empty_document_no_features (tokenize : List Char → List (List Char))
    (tokId : List Char → Int) (msl ds mql : Nat) (tr : Bool) (ex : SquadExample)
    (hEmpty : (buildDocMaps tokenize ex.docTokens).2.2 = [])
    (hNotLabelled : tr = false ∨ ex.isImpossible = true) :
    transform tokenize tokId msl ds mql tr ex = Except.ok [] := by
  obtain ⟨tp, htp⟩ : ∃ tp, tokPositions tokenize tr ex
      (buildDocMaps tokenize ex.docTokens).2.1
      (buildDocMaps tokenize ex.docTokens).2.2 = Except.ok tp := by
    rcases hNotLabelled with h | h
    · subst h
      exact ⟨none, by simp [tokPositions]⟩
    · rw [tokPositions, h]
      cases tr
      · exact ⟨none, by simp⟩
      · exact ⟨some (-1, -1), by simp⟩
  have hd : docSpans (((buildDocMaps tokenize ex.docTokens).2.2.length : Nat) : Int)
      ((msl : Int) - (truncatedQuery tokenize mql ex.questionText).length - 3)
      (ds : Int) = some [] := by
    rw [hEmpty]
    simp [docSpans, docSpansAux]
  rw [transform, htp, hd]
  rfl

/-- Claim C10 witness: an empty document in non-training mode. -/
theorem empty_document_no_features_witness :
    transform (fun _ => []) (fun _ => 0) 8 1 4 false
      { qasId := [], questionText := [], docTokens := [['a']], exampleId := 0,
        origAnswerText := none, startPosition := none, endPosition := none,
        isImpossible := false } = Except.ok [] :=
  empty_document_no_features (fun _ => []) (fun _ => 0) 8 1 4 false
    { qasId := [], questionText := [], docTokens := [['a']], exampleId := 0,
      origAnswerText := none, startPosition := none, endPosition := none,
      isImpossible := false } (by decide) (Or.inl rfl)

theorem mkFeature_ok_shape (tokId : List Char → Int) (msl : Nat)
    (queryTokens : List (List Char)) (t2o : List Nat)
    (allDocTokens : List (List Char)) (spans : List (Int × Int))
    (tr : Bool) (tokPos : Option (Int × Int)) (ex : SquadExample)
    (spanIndex : Nat) (docSpan : Int × Int) (f : SquadFeature)
    (h : mkFeature tokId msl queryTokens t2o allDocTokens spans tr tokPos ex
        spanIndex docSpan = Except.ok f) :
    f.validLength = queryTokens.length + 3 + docSpan.2.toNat ∧
    f.validLength ≤ msl ∧
    f.inputIds.length = msl ∧ f.segmentIds.length = msl ∧
    f.segmentIds = List.replicate (queryTokens.length + 2) 0 ++
      List.replicate (docSpan.2.toNat + 1) 1 ++
      List.replicate (msl - f.validLength) 0 := by
  rw [mkFeature.eq_def] at h
  cases hloop : featureDocLoop t2o allDocTokens spans spanIndex docSpan.1
      (List.range docSpan.2.toNat)
      (clsTok :: (queryTokens ++ [sepTok]), [], [],
        List.replicate (queryTokens.length + 2) 0) with
  | error msg => rw [hloop] at h; exact absurd h (by simp)
  | ok acc =>
    rw [hloop] at h
    obtain ⟨toks1, t2oMap, mcMap, segs1⟩ := acc
    obtain ⟨hlen, hsegs⟩ := featureDocLoop_spec t2o allDocTokens spans spanIndex
      docSpan.1 _ _ _ hloop
    simp only [List.length_cons, List.length_append, List.length_singleton,
      List.length_nil, List.length_range] at hlen
    simp only [List.length_range] at hsegs
    have hsl : segs1.length = queryTokens.length + 2 + docSpan.2.toNat := by
      rw [hsegs]; simp
    simp only at h
    split at h
    next hc1 => exact absurd h (by simp)
    next hc1 =>
      split at h
      next hc2 => exact absurd h (by simp)
      next hc2 =>
        split at h
        next msg hse => exact absurd h (by simp)
        next se hse =>
          injection h with h
          subst h
          rw [not_not] at hc1 hc2
          dsimp only
          simp only [List.length_append, List.length_map, List.length_replicate,
            List.length_cons, List.length_singleton, List.length_nil] at hc1 hc2 ⊢
          refine ⟨by omega, by omega, by omega, by omega, ?_⟩
          rw [hsegs]
          rw [List.append_assoc (List.replicate (queryTokens.length + 2) 0)
              (List.replicate docSpan.2.toNat 1) [1],
            ← List.replicate_succ' docSpan.2.toNat (1 : Nat)]

theorem mkFeature_positions (tokId : List Char → Int) (msl : Nat)
    (queryTokens : List (List Char)) (t2o : List Nat)
    (allDocTokens : List (List Char)) (spans : List (Int × Int))
    (tr : Bool) (tokPos : Option (Int × Int)) (ex : SquadExample)
    (spanIndex : Nat) (docSpan : Int × Int) (f : SquadFeature)
    (h : mkFeature tokId msl queryTokens t2o allDocTokens spans tr tokPos ex
        spanIndex docSpan = Except.ok f) :
    (tr = true ∧ ex.isImpossible = false ∧ ∃ ts te, tokPos = some (ts, te) ∧
      ts ≥ docSpan.1 ∧ te ≤ docSpan.1 + docSpan.2 - 1 ∧
      f.startPosition = ts - docSpan.1 + (queryTokens.length + 2) ∧
      f.endPosition = te - docSpan.1 + (queryTokens.length + 2)) ∨
    (f.startPosition = 0 ∧ f.endPosition = 0) := by
  rw [mkFeature.eq_def] at h
  cases hloop : featureDocLoop t2o allDocTokens spans spanIndex docSpan.1
      (List.range docSpan.2.toNat)
      (clsTok :: (queryTokens ++ [sepTok]), [], [],
        List.replicate (queryTokens.length + 2) 0) with
  | error msg => rw [hloop] at h; exact absurd h (by simp)
  | ok acc =>
    rw [hloop] at h
    obtain ⟨toks1, t2oMap, mcMap, segs1⟩ := acc
    simp only at h
    split at h
    next hc1 => exact absurd h (by simp)
    next hc1 =>
      split at h
      next hc2 => exact absurd h (by simp)
      next hc2 =>
        split at h
        next msg hse => exact absurd h (by simp)
        next se hse =>
          injection h with h
          subst h
          dsimp only
          cases htrb : (tr && !ex.isImpossible) with
          | false =>
            rw [htrb] at hse
            simp only [Bool.false_eq_true, if_false] at hse
            injection hse with hse
            subst hse
            right
            rw [ite_self]
            exact ⟨rfl, rfl⟩
          | true =>
            have htr1 : tr = true := by
              cases tr
              · simp at htrb
              · rfl
            have himp : ex.isImpossible = false := by
              cases himp' : ex.isImpossible
              · rfl
              · rw [htr1, himp'] at htrb; simp at htrb
            have hfin : (tr && ex.isImpossible) = false := by
              rw [himp, Bool.and_false]
            rw [htrb] at hse
            simp only [if_true] at hse
            cases tokPos with
            | none => exact absurd hse (by simp)
            | some tste =>
              dsimp only at hse
              by_cases hout : ¬(tste.1 ≥ docSpan.1 ∧ tste.2 ≤ docSpan.1 + docSpan.2 - 1)
              · rw [if_pos hout] at hse
                injection hse with hse
                subst hse
                right
                rw [hfin]
                simp
              · rw [if_neg hout] at hse
                injection hse with hse
                subst hse
                rw [not_not] at hout
                left
                refine ⟨htr1, himp, tste.1, tste.2, rfl, hout.1, hout.2, ?_, ?_⟩
                · rw [hfin]
                  simp only [Bool.false_eq_true, if_false]
                · rw [hfin]
                  simp only [Bool.false_eq_true, if_false]

theorem mem_iff_get_some {α : Type} {a : α} {l : List α} :
    a ∈ l ↔ ∃ n : Nat, l.get? n = some a := by
  rw [List.mem_iff_getElem?]
  constructor
  · rintro ⟨n, hn⟩
    exact ⟨n, by rw [List.get?_eq_getElem?]; exact hn⟩
  · rintro ⟨n, hn⟩
    exact ⟨n, by rw [← List.get?_eq_getElem?]; exact hn⟩

theorem featureDocLoop_error_msg (t2o : List Nat) (allDocTokens : List (List Char))
    (spans : List (Int × Int)) (spanIndex : Nat) (spanStart : Int) :
    ∀ (idxs : List Nat) acc m,
      featureDocLoop t2o allDocTokens spans spanIndex spanStart idxs acc =
        Except.error m →
      m = "IndexError: document sub-token" := by
  intro idxs
  induction idxs with
  | nil =>
    intro acc m h
    simp only [featureDocLoop] at h
    exact absurd h (by simp)
  | cons i rest ih =>
    intro acc m h
    obtain ⟨toks, t2oMap, mcMap, segs⟩ := acc
    simp only [featureDocLoop] at h
    cases hg1 : pyGet t2o (spanStart + (i : Int)) with
    | none =>
      rw [hg1] at h
      injection h with h
      exact h.symm
    | some origIdx =>
      cases hg2 : pyGet allDocTokens (spanStart + (i : Int)) with
      | none =>
        rw [hg1, hg2] at h
        injection h with h
        exact h.symm
      | some tok =>
        rw [hg1, hg2] at h
        exact ih _ _ h

theorem mkFeature_error_msg (tokId : List Char → Int) (msl : Nat)
    (queryTokens : List (List Char)) (t2o : List Nat)
    (allDocTokens : List (List Char)) (spans : List (Int × Int))
    (tr : Bool) (tokPos : Option (Int × Int)) (ex : SquadExample)
    (spanIndex : Nat) (docSpan : Int × Int) (msg : String)
    (hl0 : 0 ≤ docSpan.2)
    (hlm : docSpan.2 ≤ (msl : Int) - queryTokens.length - 3)
    (h : mkFeature tokId msl queryTokens t2o allDocTokens spans tr tokPos ex
        spanIndex docSpan = Except.error msg) :
    msg ≠ "AssertionError" := by
  rw [mkFeature.eq_def] at h
  cases hloop : featureDocLoop t2o allDocTokens spans spanIndex docSpan.1
      (List.range docSpan.2.toNat)
      (clsTok :: (queryTokens ++ [sepTok]), [], [],
        List.replicate (queryTokens.length + 2) 0) with
  | error m =>
    rw [hloop] at h
    injection h with h
    subst h
    rw [featureDocLoop_error_msg t2o allDocTokens spans spanIndex docSpan.1 _ _ _ hloop]
    decide
  | ok acc =>
    rw [hloop] at h
    obtain ⟨toks1, t2oMap, mcMap, segs1⟩ := acc
    obtain ⟨hlen, hsegs⟩ := featureDocLoop_spec t2o allDocTokens spans spanIndex
      docSpan.1 _ _ _ hloop
    simp only [List.length_cons, List.length_append, List.length_singleton,
      List.length_nil, List.length_range] at hlen
    simp only [List.length_range] at hsegs
    have hsl : segs1.length = queryTokens.length + 2 + docSpan.2.toNat := by
      rw [hsegs]; simp
    simp only at h
    split at h
    next hc1 =>
      exfalso
      apply hc1
      simp only [List.length_append, List.length_replicate, List.length_map,
        List.length_singleton]
      omega
    next hc1 =>
      split at h
      next hc2 =>
        exfalso
        apply hc2
        simp only [List.length_append, List.length_replicate, List.length_map,
          List.length_singleton, List.length_cons, List.length_nil]
        omega
      next hc2 =>
        split at h
        next m hse =>
          injection h with h
          subst h
          cases htrb : (tr && !ex.isImpossible) with
          | false => rw [htrb] at hse; simp at hse
          | true =>
            rw [htrb] at hse
            simp only [if_true] at hse
            cases tokPos with
            | none =>
              dsimp only at hse
              injection hse with hse
              subst hse
              decide
            | some tste =>
              dsimp only at hse
              by_cases hout : ¬(tste.1 ≥ docSpan.1 ∧ tste.2 ≤ docSpan.1 + docSpan.2 - 1)
              · rw [if_pos hout] at hse; exact absurd hse (by simp)
              · rw [if_neg hout] at hse; exact absurd hse (by simp)
        next se hse => exact absurd h (by simp)

theorem tokPositions_error_msg (tokenize : List Char → List (List Char)) (tr : Bool)
    (ex : SquadExample) (o2t : List Nat) (allDocTokens : List (List Char))
    (msg : String)
    (h : tokPositions tokenize tr ex o2t allDocTokens = Except.error msg) :
    msg ≠ "AssertionError" := by
  rw [tokPositions] at h
  by_cases hb1 : (tr && ex.isImpossible) = true
  case pos =>
    rw [if_pos hb1] at h
    exact Except.noConfusion h
  case neg =>
  rw [if_neg hb1] at h
  by_cases hb2 : (tr && !ex.isImpossible) = true
  case neg =>
    rw [if_neg hb2] at h
    exact Except.noConfusion h
  case pos =>
  rw [if_pos hb2] at h
  · cases hsp : ex.startPosition with
    | none =>
      rw [hsp] at h
      dsimp only at h
      injection h with h
      subst h
      decide
    | some sp =>
      rw [hsp] at h
      cases hep : ex.endPosition with
      | none =>
        rw [hep] at h
        dsimp only at h
        injection h with h
        subst h
        decide
      | some ep =>
        rw [hep] at h
        cases hans : ex.origAnswerText with
        | none =>
          rw [hans] at h
          dsimp only at h
          injection h with h
          subst h
          decide
        | some ans =>
          rw [hans] at h
          dsimp only at h
          cases hg : pyGet o2t sp with
          | none =>
            rw [hg] at h
            injection h with h
            subst h
            decide
          | some ts0 =>
            rw [hg] at h
            by_cases hlt : ep < (ex.docTokens.length : Int) - 1
            · rw [if_pos hlt] at h
              cases hg2 : pyGet o2t (ep + 1) with
              | none =>
                rw [hg2] at h
                dsimp only at h
                injection h with h
                subst h
                decide
              | some v =>
                rw [hg2] at h
                dsimp only at h
                exact Except.noConfusion h
            · rw [if_neg hlt] at h
              dsimp only at h
              exact Except.noConfusion h

/-- Claim C4: under the precondition `max_tokens_for_doc ≥ 1` (that is,
`max_seq_length ≥ truncated query length + 4`), every produced feature
has `len(input_ids) = len(segment_ids) = max_seq_length` and
`valid_length ≤ max_seq_length`, the two post-padding length assertions
never fail, and `segment_ids` is 0 through `[CLS]`, the query and the
first `[SEP]`, 1 for the document window and its `[SEP]`, and 0 for the
padding. -/
theorem feature_shape_invariants (tokenize : List Char → List (List Char))
    (tokId : List Char → Int) (msl ds mql : Nat) (tr : Bool) (ex : SquadExample)
    (hMtd : 1 ≤ (msl : Int) - (truncatedQuery tokenize mql ex.questionText).length - 3) :
    (∀ feats f, transform tokenize tokId msl ds mql tr ex = Except.ok feats →
      f ∈ feats →
      f.inputIds.length = msl ∧ f.segmentIds.length = msl ∧ f.validLength ≤ msl ∧
      ∃ ldoc : Nat,
        f.validLength = (truncatedQuery tokenize mql ex.questionText).length + 3 + ldoc ∧
        f.segmentIds =
          List.replicate ((truncatedQuery tokenize mql ex.questionText).length + 2) 0 ++
            List.replicate (ldoc + 1) 1 ++
            List.replicate (msl - f.validLength) 0) ∧
    (∀ msg, transform tokenize tokId msl ds mql tr ex = Except.error msg →
      msg ≠ "AssertionError") := by
  constructor
  · intro feats f hok hmem
    simp only [transform] at hok
    cases htp : tokPositions tokenize tr ex (buildDocMaps tokenize ex.docTokens).2.1
        (buildDocMaps tokenize ex.docTokens).2.2 with
    | error m => rw [htp] at hok; exact absurd hok (by simp)
    | ok tokPos =>
      rw [htp] at hok
      cases hds : docSpans ((buildDocMaps tokenize ex.docTokens).2.2.length : Int)
          ((msl : Int) - (truncatedQuery tokenize mql ex.questionText).length - 3)
          (ds : Int) with
      | none => rw [hds] at hok; exact absurd hok (by simp)
      | some spans =>
        rw [hds] at hok
        obtain ⟨k, hk⟩ := mem_iff_get_some.mp hmem
        obtain ⟨hlenf, hget⟩ := exceptMap_ok_get _ _ _ hok
        obtain ⟨x, hx, hfx⟩ := hget k f hk
        rw [List.get?_enum] at hx
        cases hsp : spans.get? k with
        | none => rw [hsp] at hx; exact absurd hx (by simp)
        | some span =>
          rw [hsp] at hx
          injection hx with hx
          subst hx
          obtain ⟨v1, v2, v3, v4, v5⟩ :=
            mkFeature_ok_shape _ _ _ _ _ _ _ _ _ _ _ _ hfx
          exact ⟨v3, v4, v2, span.2.toNat, v1, v5⟩
  · intro msg htr2
    simp only [transform] at htr2
    cases htp : tokPositions tokenize tr ex (buildDocMaps tokenize ex.docTokens).2.1
        (buildDocMaps tokenize ex.docTokens).2.2 with
    | error m =>
      rw [htp] at htr2
      injection htr2 with htr2
      subst htr2
      exact tokPositions_error_msg _ _ _ _ _ _ htp
    | ok tokPos =>
      rw [htp] at htr2
      cases hds : docSpans ((buildDocMaps tokenize ex.docTokens).2.2.length : Int)
          ((msl : Int) - (truncatedQuery tokenize mql ex.questionText).length - 3)
          (ds : Int) with
      | none =>
        rw [hds] at htr2
        injection htr2 with htr2
        subst htr2
        decide
      | some spans =>
        rw [hds] at htr2
        obtain ⟨x, hx, hfx⟩ := exceptMap_error_mem _ _ _ htr2
        obtain ⟨k, hk⟩ := mem_iff_get_some.mp hx
        rw [List.get?_enum] at hk
        cases hsp : spans.get? k with
        | none => rw [hsp] at hk; exact absurd hk (by simp)
        | some span =>
          rw [hsp] at hk
          injection hk with hk
          subst hk
          have hmem2 : span ∈ spans := List.get?_mem hsp
          have hds' := hds
          rw [docSpans] at hds'
          obtain ⟨heq, hlt⟩ := docSpansAux_mem _ _ _ _ _ _ hds' span hmem2
          refine mkFeature_error_msg _ _ _ _ _ _ _ _ _ _ _ _ ?_ ?_ hfx
          · rw [heq]
            exact le_min (by omega) (by omega)
          · rw [heq]
            exact min_le_right _ _

/-- Closed form of `orig_to_tok_index`: entry `i` holds `n` plus the
number of sub-tokens contributed by the words before word `i`. -/
def o2tFrom (tokenize : List Char → List (List Char)) :
    List (List Char) → Nat → List Nat
  | [], _ => []
  | w :: ws, n => n :: o2tFrom tokenize ws (n + (tokenize w).length)

theorem buildDocMapsAux_spec (tokenize : List Char → List (List Char)) :
    ∀ (ws : List (List Char)) (i : Nat) (t2o o2t : List Nat) (all : List (List Char)),
      (buildDocMapsAux tokenize ws i t2o o2t all).2.1 =
        o2t ++ o2tFrom tokenize ws all.length ∧
      (buildDocMapsAux tokenize ws i t2o o2t all).2.2 = all ++ ws.flatMap tokenize := by
  intro ws
  induction ws with
  | nil => intro i t2o o2t all; simp [buildDocMapsAux, o2tFrom]
  | cons w ws ih =>
    intro i t2o o2t all
    simp only [buildDocMapsAux, o2tFrom, List.flatMap_cons]
    obtain ⟨h1, h2⟩ := ih (i + 1) (t2o ++ (tokenize w).map fun _ => i)
      (o2t ++ [all.length]) (all ++ tokenize w)
    constructor
    · rw [h1]
      simp [List.append_assoc, List.length_append]
    · rw [h2]
      simp [List.append_assoc]

theorem buildDocMaps_o2t (tokenize : List Char → List (List Char))
    (docTokens : List (List Char)) :
    (buildDocMaps tokenize docTokens).2.1 = o2tFrom tokenize docTokens 0 := by
  have h := (buildDocMapsAux_spec tokenize docTokens 0 [] [] []).1
  simpa [buildDocMaps] using h

theorem buildDocMaps_all (tokenize : List Char → List (List Char))
    (docTokens : List (List Char)) :
    (buildDocMaps tokenize docTokens).2.2 = docTokens.flatMap tokenize := by
  have h := (buildDocMapsAux_spec tokenize docTokens 0 [] [] []).2
  simpa [buildDocMaps] using h

theorem o2tFrom_lower (tokenize : List Char → List (List Char)) :
    ∀ (ws : List (List Char)) (n k v : Nat),
      (o2tFrom tokenize ws n).get? k = some v → n ≤ v := by
  intro ws
  induction ws with
  | nil => intro n k v h; simp [o2tFrom] at h
  | cons w ws ih =>
    intro n k v h
    cases k with
    | zero =>
      simp only [o2tFrom, List.get?] at h
      injection h with h
      omega
    | succ k' =>
      simp only [o2tFrom, List.get?] at h
      have := ih (n + (tokenize w).length) k' v h
      omega

theorem o2tFrom_strict (tokenize : List Char → List (List Char)) :
    ∀ (ws : List (List Char)) (n k k' vk vk' : Nat),
      k < k' →
      (o2tFrom tokenize ws n).get? k = some vk →
      (o2tFrom tokenize ws n).get? k' = some vk' →
      (∀ w ∈ ws, tokenize w ≠ []) → vk < vk' := by
  intro ws
  induction ws with
  | nil => intro n k k' vk vk' hkk h1 h2 hne; simp [o2tFrom] at h1
  | cons w ws ih =>
    intro n k k' vk vk' hkk h1 h2 hne
    cases k' with
    | zero => omega
    | succ k2 =>
      cases k with
      | zero =>
        simp only [o2tFrom, List.get?] at h1 h2
        injection h1 with h1
        have hlb := o2tFrom_lower tokenize ws (n + (tokenize w).length) k2 vk' h2
        have hc : 1 ≤ (tokenize w).length := by
          have hw := hne w (List.mem_cons_self w ws)
          cases hw' : tokenize w
          · exact absurd hw' hw
          · simp [hw']
        omega
      | succ k1 =>
        simp only [o2tFrom, List.get?] at h1 h2
        exact ih (n + (tokenize w).length) k1 k2 vk vk' (by omega) h1 h2
          (fun x hx => hne x (List.mem_cons_of_mem _ hx))

theorem o2tFrom_upper (tokenize : List Char → List (List Char)) :
    ∀ (ws : List (List Char)) (n k v : Nat),
      (o2tFrom tokenize ws n).get? k = some v →
      (∀ w ∈ ws, tokenize w ≠ []) →
      v < n + (ws.flatMap tokenize).length := by
  intro ws
  induction ws with
  | nil => intro n k v h _; simp [o2tFrom] at h
  | cons w ws ih =>
    intro n k v h hne
    have hc : 1 ≤ (tokenize w).length := by
      have hw := hne w (List.mem_cons_self w ws)
      cases hw' : tokenize w
      · exact absurd hw' hw
      · simp [hw']
    cases k with
    | zero =>
      simp only [o2tFrom, List.get?] at h
      injection h with h
      subst h
      simp only [List.flatMap_cons, List.length_append]
      omega
    | succ k' =>
      simp only [o2tFrom, List.get?] at h
      have := ih (n + (tokenize w).length) k' v h
        (fun x hx => hne x (List.mem_cons_of_mem _ hx))
      simp only [List.flatMap_cons, List.length_append]
      omega

theorem pyGet_nonneg {α : Type} (xs : List α) (i : Int) (h : 0 ≤ i) :
    pyGet xs i = xs.get? i.toNat := by
  simp only [pyGet]
  rw [if_neg (by omega : ¬i < 0), if_pos h]

theorem improveInner_le (doc : List (List Char)) (target : List Char) (s : Int) :
    ∀ (fuel : Nat) (e e' : Int), improveInner doc target s fuel e = some e' →
      s ≤ e' ∧ e' ≤ e := by
  intro fuel
  induction fuel with
  | zero => intro e e' h; exact Option.noConfusion h
  | succ n ih =>
    intro e e' h
    simp only [improveInner] at h
    by_cases h1 : e < s
    · rw [if_pos h1] at h
      exact Option.noConfusion h
    · rw [if_neg h1] at h
      by_cases h2 : joinWords (pySlice doc s (e + 1)) = target
      · rw [if_pos h2] at h
        injection h with h
        subst h
        exact ⟨by omega, le_refl _⟩
      · rw [if_neg h2] at h
        have := ih (e - 1) e' h
        exact ⟨this.1, by omega⟩

theorem improveOuter_le (doc : List (List Char)) (target : List Char) (E : Int) :
    ∀ (fuel : Nat) (s a b : Int), improveOuter doc target E fuel s = some (a, b) →
      s ≤ a ∧ a ≤ b ∧ b ≤ E := by
  intro fuel
  induction fuel with
  | zero => intro s a b h; exact Option.noConfusion h
  | succ n ih =>
    intro s a b h
    simp only [improveOuter] at h
    by_cases h1 : E < s
    · rw [if_pos h1] at h
      exact Option.noConfusion h
    · rw [if_neg h1] at h
      cases hin : improveInner doc target s (E + 1 - s).toNat E with
      | some e =>
        rw [hin] at h
        injection h with h
        obtain ⟨hse, hee⟩ := improveInner_le doc target s _ E e hin
        cases h
        exact ⟨le_refl _, hse, hee⟩
      | none =>
        rw [hin] at h
        have := ih (s + 1) a b h
        exact ⟨by omega, this.2.1, this.2.2⟩

theorem improveAnswerSpan_le (doc : List (List Char)) (S E : Int)
    (tokenize : List Char → List (List Char)) (ans : List Char) (hSE : S ≤ E) :
    S ≤ (improveAnswerSpan doc S E tokenize ans).1 ∧
    (improveAnswerSpan doc S E tokenize ans).1 ≤ (improveAnswerSpan doc S E tokenize ans).2 ∧
    (improveAnswerSpan doc S E tokenize ans).2 ≤ E := by
  simp only [improveAnswerSpan]
  cases ho : improveOuter doc (joinWords (tokenize ans)) E (E + 1 - S).toNat S with
  | none => exact ⟨le_refl S, hSE, le_refl E⟩
  | some se =>
    obtain ⟨a, b⟩ := se
    exact improveOuter_le doc _ E _ S a b ho

theorem tokPositions_ordered (tokenize : List Char → List (List Char)) (tr : Bool)
    (ex : SquadExample) (ts te : Int)
    (hNE : ∀ w ∈ ex.docTokens, tokenize w ≠ [])
    (hInv : tr = true → ex.isImpossible = false → ∃ sp ep,
      ex.startPosition = some sp ∧ ex.endPosition = some ep ∧
      0 ≤ sp ∧ sp ≤ ep ∧ ep < (ex.docTokens.length : Int))
    (hok : tokPositions tokenize tr ex (buildDocMaps tokenize ex.docTokens).2.1
      (buildDocMaps tokenize ex.docTokens).2.2 = Except.ok (some (ts, te))) :
    ts ≤ te := by
  rw [tokPositions] at hok
  by_cases hb1 : (tr && ex.isImpossible) = true
  · rw [if_pos hb1] at hok
    injection hok with hok
    injection hok with hok
    cases hok
    omega
  · rw [if_neg hb1] at hok
    by_cases hb2 : (tr && !ex.isImpossible) = true
    case neg =>
      rw [if_neg hb2] at hok
      injection hok with hok
      exact Option.noConfusion hok
    case pos =>
    rw [if_pos hb2] at hok
    have htr1 : tr = true := by
      cases tr
      · simp at hb2
      · rfl
    have himp : ex.isImpossible = false := by
      cases h' : ex.isImpossible
      · rfl
      · rw [htr1, h'] at hb2; simp at hb2
    obtain ⟨sp, ep, hsp, hep, hsp0, hspep, heplen⟩ := hInv htr1 himp
    rw [hsp, hep] at hok
    cases hans : ex.origAnswerText with
    | none =>
      rw [hans] at hok
      dsimp only at hok
      exact Except.noConfusion hok
    | some ans =>
      rw [hans] at hok
      dsimp only at hok
      cases hg : pyGet (buildDocMaps tokenize ex.docTokens).2.1 sp with
      | none => rw [hg] at hok; exact Except.noConfusion hok
      | some ts0 =>
        rw [hg] at hok
        have hg' : (o2tFrom tokenize ex.docTokens 0).get? sp.toNat = some ts0 := by
          rw [← buildDocMaps_o2t, ← pyGet_nonneg _ _ hsp0]
          exact hg
        by_cases hlt : ep < (ex.docTokens.length : Int) - 1
        · rw [if_pos hlt] at hok
          cases hg2 : pyGet (buildDocMaps tokenize ex.docTokens).2.1 (ep + 1) with
          | none =>
            rw [hg2] at hok
            dsimp only at hok
            exact Except.noConfusion hok
          | some v =>
            rw [hg2] at hok
            dsimp only at hok
            injection hok with hok
            injection hok with hok
            have hg2' : (o2tFrom tokenize ex.docTokens 0).get? (ep + 1).toNat = some v := by
              rw [← buildDocMaps_o2t, ← pyGet_nonneg _ _ (by omega : (0:Int) ≤ ep + 1)]
              exact hg2
            have hstrict : ts0 < v :=
              o2tFrom_strict tokenize ex.docTokens 0 sp.toNat (ep + 1).toNat ts0 v
                (by omega) hg' hg2' hNE
            have hord := improveAnswerSpan_le (buildDocMaps tokenize ex.docTokens).2.2
              (ts0 : Int) ((v : Int) - 1) tokenize ans (by omega)
            rw [hok] at hord
            exact hord.2.1
        · rw [if_neg hlt] at hok
          dsimp only at hok
          injection hok with hok
          injection hok with hok
          have hub : ts0 < 0 + (ex.docTokens.flatMap tokenize).length :=
            o2tFrom_upper tokenize ex.docTokens 0 sp.toNat ts0 hg' hNE
          have hlen2 : (buildDocMaps tokenize ex.docTokens).2.2.length =
              (ex.docTokens.flatMap tokenize).length := by
            rw [buildDocMaps_all]
          have hord := improveAnswerSpan_le (buildDocMaps tokenize ex.docTokens).2.2
            (ts0 : Int) (((buildDocMaps tokenize ex.docTokens).2.2.length : Int) - 1)
            tokenize ans (by rw [hlen2]; omega)
          rw [hok] at hord
          exact hord.2.1

/-- Claim C3 (amended): for every feature produced by `_transform`, when
the tokenizer yields at least one sub-token per document word and the
example satisfies the `SquadExample` label invariant
(`0 ≤ start_word ≤ end_word < len(doc_tokens)` for answerable training
examples), nonzero labels lie in `[0, valid_length)` with
`start_position ≤ end_position`, and both labels are 0 whenever the
example is impossible or the aligned token span does not lie entirely
within the feature's window. -/
theorem label_containment (tokenize : List Char → List (List Char))
    (tokId : List Char → Int) (msl ds mql : Nat) (tr : Bool) (ex : SquadExample)
    (feats : List SquadFeature)
    (hNE : ∀ w ∈ ex.docTokens, tokenize w ≠ [])
    (hInv : tr = true → ex.isImpossible = false → ∃ sp ep,
      ex.startPosition = some sp ∧ ex.endPosition = some ep ∧
      0 ≤ sp ∧ sp ≤ ep ∧ ep < (ex.docTokens.length : Int))
    (hOk : transform tokenize tokId msl ds mql tr ex = Except.ok feats)
    (k : Nat) (f : SquadFeature) (hf : feats.get? k = some f) :
    ((f.startPosition ≠ 0 ∨ f.endPosition ≠ 0) →
      0 ≤ f.startPosition ∧ f.startPosition ≤ f.endPosition ∧
      f.endPosition < (f.validLength : Int)) ∧
    (ex.isImpossible = true → f.startPosition = 0 ∧ f.endPosition = 0) ∧
    (∀ ts te spans span,
      tokPositions tokenize tr ex (buildDocMaps tokenize ex.docTokens).2.1
        (buildDocMaps tokenize ex.docTokens).2.2 = Except.ok (some (ts, te)) →
      docSpans ((buildDocMaps tokenize ex.docTokens).2.2.length : Int)
        ((msl : Int) - (truncatedQuery tokenize mql ex.questionText).length - 3)
        (ds : Int) = some spans →
      spans.get? k = some span →
      ¬(span.1 ≤ ts ∧ te ≤ span.1 + span.2 - 1) →
      f.startPosition = 0 ∧ f.endPosition = 0) := by
  simp only [transform] at hOk
  cases htp : tokPositions tokenize tr ex (buildDocMaps tokenize ex.docTokens).2.1
      (buildDocMaps tokenize ex.docTokens).2.2 with
  | error m => rw [htp] at hOk; exact absurd hOk (by simp)
  | ok tokPos =>
    rw [htp] at hOk
    cases hds : docSpans ((buildDocMaps tokenize ex.docTokens).2.2.length : Int)
        ((msl : Int) - (truncatedQuery tokenize mql ex.questionText).length - 3)
        (ds : Int) with
    | none => rw [hds] at hOk; exact absurd hOk (by simp)
    | some spans =>
      rw [hds] at hOk
      obtain ⟨hlenf, hget⟩ := exceptMap_ok_get _ _ _ hOk
      obtain ⟨x, hx, hfx⟩ := hget k f hf
      rw [List.get?_enum] at hx
      cases hsp : spans.get? k with
      | none => rw [hsp] at hx; exact absurd hx (by simp)
      | some span =>
        rw [hsp] at hx
        simp only [Option.map_some'] at hx
        injection hx with hx
        subst hx
        dsimp only at hfx
        have hpos := mkFeature_positions _ _ _ _ _ _ _ _ _ _ _ _ hfx
        obtain ⟨hvl, _, _, _, _⟩ := mkFeature_ok_shape _ _ _ _ _ _ _ _ _ _ _ _ hfx
        refine ⟨?_, ?_, ?_⟩
        · intro hne0
          rcases hpos with ⟨htr1, himp, ts, te, htps, hin1, hin2, hst, hen⟩ | ⟨h0s, h0e⟩
          · have hord : ts ≤ te := by
              refine tokPositions_ordered tokenize tr ex ts te hNE hInv ?_
              rw [htp, htps]
            have hsle := Int.self_le_toNat span.2
            rw [hst, hen]
            refine ⟨by omega, by omega, ?_⟩
            rw [hvl]
            push_cast
            omega
          · rcases hne0 with hne0 | hne0
            · exact absurd h0s hne0
            · exact absurd h0e hne0
        · intro himp
          rcases hpos with ⟨_, himp2, _⟩ | h0
          · rw [himp] at himp2; exact absurd himp2 (by simp)
          · exact h0
        · intro ts te spans' span' htp' hds' hsp' hout
          injection htp' with htp'
          injection hds' with hds'
          subst hds'
          rw [hsp] at hsp'
          injection hsp' with hsp'
          subst hsp'
          rcases hpos with ⟨_, _, ts2, te2, htps2, hin1, hin2, _, _⟩ | h0
          · exfalso
            rw [htps2] at htp'
            injection htp' with htp'
            rw [Prod.mk.injEq] at htp'
            obtain ⟨h1, h2⟩ := htp'
            subst h1
            subst h2
            exact hout ⟨hin1, hin2⟩
          · exact h0

deriving instance DecidableEq for Except

/-- A tokenizer yielding one sub-token per word, used for the concrete
instances below. -/
def wordTokenize : List Char → List (List Char) := fun w => [w]

/-- A constant vocabulary lookup for the concrete instances. -/
def constTokId : List Char → Int := fun _ => 7

/-- A degenerate answerable training example that `SQuAD._read` really
produces (context `"a b"`, empty answer text at `answer_start = 2`):
its word-level span is `start_word = 1 > end_word = 0`. -/
def cexExample : SquadExample :=
  { qasId := [], questionText := ['q'], docTokens := [['a'], ['b']],
    exampleId := 0, origAnswerText := some [],
    startPosition := some 1, endPosition := some 0, isImpossible := false }

/-- Claim C3 counterexample: on `cexExample` (with `max_seq_length = 6`)
the transform emits exactly one feature whose labels are
`start_position = 4` and `end_position = 3`: both nonzero, in range, yet
`start_position > end_position`, refuting the claim as stated. -/
theorem label_containment_counterexample :
    ((transform wordTokenize constTokId 6 1 64 true cexExample).toOption.getD []).map
        (fun f => (f.startPosition, f.endPosition)) = [(4, 3)] ∧
    ¬((4 : Int) = 0 ∧ (3 : Int) = 0) ∧ ¬((4 : Int) ≤ 3) := by
  refine ⟨by decide, by decide, by decide⟩

/-- A well-formed answerable training example: context `"a b"`, answer
`"a b"` covering both words. -/
def goodExample : SquadExample :=
  { qasId := [], questionText := ['q'], docTokens := [['a'], ['b']],
    exampleId := 0, origAnswerText := some ['a', ' ', 'b'],
    startPosition := some 0, endPosition := some 1, isImpossible := false }

/-- The single feature the transform emits for `goodExample` with
`max_seq_length = 6`, `doc_stride = 1`, `max_query_length = 64`. -/
def goodFeature : SquadFeature :=
  { exampleId := 0, qasId := [], docTokens := [['a'], ['b']], docSpanIndex := 0,
    tokens := [clsTok, ['q'], sepTok, ['a'], ['b'], sepTok],
    tokenToOrigMap := [(3, 0), (4, 1)],
    tokenIsMaxContext := [(3, true), (4, true)],
    inputIds := [7, 7, 7, 7, 7, 7], validLength := 6,
    segmentIds := [0, 0, 0, 1, 1, 1],
    startPosition := 3, endPosition := 4, isImpossible := false }

/-- Claim C3 witness: the amended theorem applied to the concrete
pipeline run on `goodExample`. -/
theorem label_containment_witness :
    ((goodFeature.startPosition ≠ 0 ∨ goodFeature.endPosition ≠ 0) →
      0 ≤ goodFeature.startPosition ∧
      goodFeature.startPosition ≤ goodFeature.endPosition ∧
      goodFeature.endPosition < (goodFeature.validLength : Int)) ∧
    (goodExample.isImpossible = true →
      goodFeature.startPosition = 0 ∧ goodFeature.endPosition = 0) ∧
    (∀ ts te spans span,
      tokPositions wordTokenize true goodExample
        (buildDocMaps wordTokenize goodExample.docTokens).2.1
        (buildDocMaps wordTokenize goodExample.docTokens).2.2 =
          Except.ok (some (ts, te)) →
      docSpans ((buildDocMaps wordTokenize goodExample.docTokens).2.2.length : Int)
        ((6 : Int) - (truncatedQuery wordTokenize 64 goodExample.questionText).length - 3)
        ((1 : Nat) : Int) = some spans →
      spans.get? 0 = some span →
      ¬(span.1 ≤ ts ∧ te ≤ span.1 + span.2 - 1) →
      goodFeature.startPosition = 0 ∧ goodFeature.endPosition = 0) :=
  label_containment wordTokenize constTokId 6 1 64 true goodExample [goodFeature]
    (by decide)
    (fun _ _ => ⟨0, 1, rfl, rfl, by decide, by decide, by decide⟩)
    (by decide) 0 goodFeature (by decide)

/-- Claim C4 witness: the shape invariants instantiated on the concrete
pipeline run on `goodExample`. -/
theorem feature_shape_invariants_witness :
    goodFeature.inputIds.length = 6 ∧ goodFeature.segmentIds.length = 6 ∧
    goodFeature.validLength ≤ 6 ∧
    ∃ ldoc : Nat,
      goodFeature.validLength =
        (truncatedQuery wordTokenize 64 goodExample.questionText).length + 3 + ldoc ∧
      goodFeature.segmentIds =
        List.replicate
            ((truncatedQuery wordTokenize 64 goodExample.questionText).length + 2) 0 ++
          List.replicate (ldoc + 1) 1 ++
          List.replicate (6 - goodFeature.validLength) 0 :=
  (feature_shape_invariants wordTokenize constTokId 6 1 64 true goodExample
      (by decide)).1 [goodFeature] goodFeature (by decide) (by decide)

/-! ## The reader (`SQuAD._read`, lines 138-231)

The JSON file I/O is outside the modelled core; the per-paragraph /
per-question loop building `SquadExample`s from the already-extracted
fields is modelled over explicit record lists (one flat list of
paragraphs — the `entry` level of the JSON adds nothing to the loop). -/

/-- `is_whitespace` of lines 143-147: space, tab, CR, LF, or U+202F. -/
def is_whitespace (c : Char) : Bool :=
  c = ' ' || c = '\t' || c = '\r' || c = '\n' || c.toNat = 0x202F

/-- Python's whitespace set for `str.split()`/`str.strip()`, restricted to
the characters this model can meet (ASCII whitespace, vertical tab, form
feed, U+202F — all are `str.isspace()` in Python 3). -/
def pyIsSpace (c : Char) : Bool :=
  c = ' ' || c = '\t' || c = '\n' || c = '\r' ||
    c.toNat = 0x0B || c.toNat = 0x0C || c.toNat = 0x202F

/-- `str.split()` with no separator: maximal non-whitespace runs, empties
discarded.  The fuel is the remaining length, always sufficient. -/
def pySplitAux : Nat → List Char → List (List Char)
  | 0, _ => []
  | _, [] => []
  | fuel + 1, c :: cs =>
    if pyIsSpace c then pySplitAux fuel cs
    else (c :: cs.takeWhile (fun x => !pyIsSpace x)) ::
      pySplitAux fuel (cs.dropWhile (fun x => !pyIsSpace x))

def pySplit (l : List Char) : List (List Char) :=
  pySplitAux l.length l

/-- `whitespace_tokenize` (lines 225-231): strip, empty check, split. -/
def whitespace_tokenize (text : List Char) : List (List Char) :=
  let stripped := ((text.dropWhile (fun c => pyIsSpace c)).reverse.dropWhile
    (fun c => pyIsSpace c)).reverse
  if stripped = [] then [] else pySplit stripped

/-- `haystack.find(needle) != -1`: some contiguous run of `haystack`
equals `needle` (scanning start offsets left to right like CPython). -/
def pyContainsSub (needle : List Char) : List Char → Bool
  | [] => needle.isPrefixOf []
  | c :: t => needle.isPrefixOf (c :: t) || pyContainsSub needle t

/-- `doc_tokens[-1] += c`; the `[]` case is unreachable because
`prev_is_whitespace` is false only after a word has been started. -/
def appendToLast : List (List Char) → Char → List (List Char)
  | [], c => [[c]]
  | [t], c => [t ++ [c]]
  | t :: ts, c => t :: appendToLast ts c

/-- Lines 153-166: whitespace segmentation.  Returns the final
`doc_tokens` together with the `char_to_word_offset` entries for the
remaining characters (each entry is `len(doc_tokens) - 1` at the moment
its character is processed, hence `-1` inside leading whitespace). -/
def segmentAux : List Char → List (List Char) → Bool → List (List Char) × List Int
  | [], toks, _ => (toks, [])
  | c :: cs, toks, prev =>
    if is_whitespace c then
      let r := segmentAux cs toks true
      (r.1, ((toks.length : Int) - 1) :: r.2)
    else
      let toks' := if prev then toks ++ [[c]] else appendToLast toks c
      let r := segmentAux cs toks' false
      (r.1, ((toks'.length : Int) - 1) :: r.2)

/-- `doc_tokens` and `char_to_word_offset` for one paragraph context. -/
def segmentText (text : List Char) : List (List Char) × List Int :=
  segmentAux text [] true

/-- One record of `paragraph['qas']`. -/
structure RawQA where
  qasId : List Char
  question : List Char
  answers : List (List Char × Int)
  isImpossible : Bool
deriving DecidableEq

/-- One record of `entry['paragraphs']`. -/
structure RawParagraph where
  context : List Char
  qas : List RawQA
deriving DecidableEq

/-- Lines 168-221: the per-question loop, threading the `example_id`
counter.  A `ValueError` or `IndexError` aborts the whole read, as a
Python `raise` would; a failed answer-recoverability check drops the
question without touching the counter (the `continue` of line 204 comes
before the increment of line 221). -/
def readQAs (isTraining version2 : Bool) (docTokens : List (List Char))
    (charToWord : List Int) :
    List RawQA → Nat → List SquadExample →
    Except String (Nat × List SquadExample)
  | [], n, acc => Except.ok (n, acc)
  | qa :: rest, n, acc =>
    let isImpossible := if version2 then qa.isImpossible else false
    if isTraining then
      if qa.answers.length ≠ 1 ∧ ¬isImpossible = true then
        Except.error "ValueError: For training, each question should have exactly 1 answer."
      else if isImpossible = false then
        match qa.answers.head? with
        | none => Except.error "IndexError: answers[0]"
        | some answer =>
          let origAnswerText := answer.1
          let answerOffset := answer.2
          let answerLength : Int := origAnswerText.length
          match pyGet charToWord answerOffset,
              pyGet charToWord (answerOffset + answerLength - 1) with
          | some startPos, some endPos =>
            let actualText := joinWords (pySlice docTokens startPos (endPos + 1))
            let cleanedAnswerText := joinWords (whitespace_tokenize origAnswerText)
            if pyContainsSub cleanedAnswerText actualText = false then
              readQAs isTraining version2 docTokens charToWord rest n acc
            else
              let e : SquadExample :=
                { qasId := qa.qasId, questionText := qa.question,
                  docTokens := docTokens, exampleId := n,
                  origAnswerText := some origAnswerText,
                  startPosition := some startPos, endPosition := some endPos,
                  isImpossible := isImpossible }
              readQAs isTraining version2 docTokens charToWord rest (n + 1) (acc ++ [e])
          | _, _ => Except.error "IndexError: char_to_word_offset"
      else
        let e : SquadExample :=
          { qasId := qa.qasId, questionText := qa.question,
            docTokens := docTokens, exampleId := n,
            origAnswerText := some [], startPosition := some (-1),
            endPosition := some (-1), isImpossible := isImpossible }
        readQAs isTraining version2 docTokens charToWord rest (n + 1) (acc ++ [e])
    else
      let e : SquadExample :=
        { qasId := qa.qasId, questionText := qa.question,
          docTokens := docTokens, exampleId := n,
          origAnswerText := none, startPosition := none, endPosition := none,
          isImpossible := isImpossible }
      readQAs isTraining version2 docTokens charToWord rest (n + 1) (acc ++ [e])

/-- Lines 151-223: the per-paragraph loop, running the segmenter once per
paragraph. -/
def readParas (isTraining version2 : Bool) :
    List RawParagraph → Nat → List SquadExample →
    Except String (Nat × List SquadExample)
  | [], n, acc => Except.ok (n, acc)
  | p :: rest, n, acc =>
    match readQAs isTraining version2 (segmentText p.context).1
        (segmentText p.context).2 p.qas n acc with
    | Except.error msg => Except.error msg
    | Except.ok r => readParas isTraining version2 rest r.1 r.2

/-- `SQuAD._read` over already-parsed records: flattens questions to
`SquadExample`s in encounter order, threading the `example_id` counter
from 0. -/
def readExamples (isTraining version2 : Bool) (data : List RawParagraph) :
    Except String (List SquadExample) :=
  match readParas isTraining version2 data 0 [] with
  | Except.error msg => Except.error msg
  | Except.ok r => Except.ok r.2

theorem readQAs_counter (tr v2 : Bool) (doc : List (List Char)) (c2w : List Int) :
    ∀ (qas : List RawQA) (n : Nat) (acc : List SquadExample) res,
      readQAs tr v2 doc c2w qas n acc = Except.ok res →
      n = acc.length →
      (∀ k e, acc.get? k = some e → e.exampleId = k) →
      res.1 = res.2.length ∧ ∀ k e, res.2.get? k = some e → e.exampleId = k := by
  intro qas
  induction qas with
  | nil =>
    intro n acc res h hn hacc
    simp only [readQAs] at h
    cases h
    exact ⟨hn, hacc⟩
  | cons qa rest ih =>
    intro n acc res h hn hacc
    have happend : ∀ (e : SquadExample), e.exampleId = n →
        n + 1 = (acc ++ [e]).length ∧
        ∀ k e', (acc ++ [e]).get? k = some e' → e'.exampleId = k := by
      intro e he
      refine ⟨by simp [hn], ?_⟩
      intro k e' hk
      rcases lt_trichotomy k acc.length with hlt | heq | hgt
      · rw [List.get?_append hlt] at hk
        exact hacc k e' hk
      · subst heq
        rw [List.get?_concat_length] at hk
        injection hk with hk
        subst hk
        omega
      · have hnone : (acc ++ [e]).get? k = none := by
          rw [List.get?_eq_none]
          simp only [List.length_append, List.length_singleton]
          omega
        rw [hnone] at hk
        exact Option.noConfusion hk
    simp only [readQAs] at h
    by_cases htrb : tr = true
    · rw [if_pos htrb] at h
      by_cases hval : qa.answers.length ≠ 1 ∧ ¬(if v2 then qa.isImpossible else false) = true
      · rw [if_pos hval] at h
        exact Except.noConfusion h
      · rw [if_neg hval] at h
        by_cases himp : (if v2 then qa.isImpossible else false) = false
        · rw [if_pos himp] at h
          cases hhd : qa.answers.head? with
          | none => rw [hhd] at h; exact Except.noConfusion h
          | some answer =>
            rw [hhd] at h
            dsimp only at h
            cases hg1 : pyGet c2w answer.2 with
            | none =>
              rw [hg1] at h
              dsimp only at h
              exact Except.noConfusion h
            | some startPos =>
              cases hg2 : pyGet c2w (answer.2 + (answer.1.length : Int) - 1) with
              | none =>
                rw [hg1, hg2] at h
                dsimp only at h
                exact Except.noConfusion h
              | some endPos =>
                rw [hg1, hg2] at h
                dsimp only at h
                by_cases hdrop : pyContainsSub
                    (joinWords (whitespace_tokenize answer.1))
                    (joinWords (pySlice doc startPos (endPos + 1))) = false
                · rw [if_pos hdrop] at h
                  exact ih n acc res h hn hacc
                · rw [if_neg hdrop] at h
                  exact ih (n + 1) _ res h (happend _ rfl).1 (happend _ rfl).2
        · rw [if_neg himp] at h
          exact ih (n + 1) _ res h (happend _ rfl).1 (happend _ rfl).2
    · rw [if_neg htrb] at h
      exact ih (n + 1) _ res h (happend _ rfl).1 (happend _ rfl).2

theorem readParas_counter (tr v2 : Bool) :
    ∀ (paras : List RawParagraph) (n : Nat) (acc : List SquadExample) res,
      readParas tr v2 paras n acc = Except.ok res →
      n = acc.length →
      (∀ k e, acc.get? k = some e → e.exampleId = k) →
      res.1 = res.2.length ∧ ∀ k e, res.2.get? k = some e → e.exampleId = k := by
  intro paras
  induction paras with
  | nil =>
    intro n acc res h hn hacc
    simp only [readParas] at h
    cases h
    exact ⟨hn, hacc⟩
  | cons p rest ih =>
    intro n acc res h hn hacc
    simp only [readParas] at h
    cases hq : readQAs tr v2 (segmentText p.context).1 (segmentText p.context).2
        p.qas n acc with
    | error m => rw [hq] at h; exact Except.noConfusion h
    | ok r =>
      rw [hq] at h
      obtain ⟨h1, h2⟩ := readQAs_counter tr v2 _ _ p.qas n acc r hq hn hacc
      exact ih r.1 r.2 res h h1 h2

/-- Claim C6 (amended): the `example_id` counter increments only when an
example is actually appended — dropped questions do not advance it — so a
kept example's id equals its index in the output list (dense over kept
examples), not its question's position among all input records. -/
theorem sequence_id_dense_over_kept (tr v2 : Bool) (data : List RawParagraph)
    (exs : List SquadExample)
    (h : readExamples tr v2 data = Except.ok exs) :
    ∀ k e, exs.get? k = some e → e.exampleId = k := by
  rw [readExamples] at h
  cases hp : readParas tr v2 data 0 [] with
  | error m => rw [hp] at h; exact Except.noConfusion h
  | ok r =>
    rw [hp] at h
    injection h with h
    subst h
    refine (readParas_counter tr v2 data 0 [] r hp rfl ?_).2
    intro k e hk
    simp at hk

/-- Two questions on context `"ab"`: the first has the unrecoverable
answer `"x"`, the second the recoverable answer `"ab"`. -/
def cexData6 : List RawParagraph :=
  [{ context := ['a', 'b'],
     qas := [{ qasId := ['q', '1'], question := ['w'],
               answers := [(['x'], 0)], isImpossible := false },
             { qasId := ['q', '2'], question := ['w'],
               answers := [(['a', 'b'], 0)], isImpossible := false }] }]

/-- Claim C6 counterexample: the first question of `cexData6` is dropped
by the recoverability check and the `continue` (line 204) skips the
counter increment (line 221), so the kept second question — input
position 1 — receives `example_id = 0`. -/
theorem sequence_id_counterexample :
    (readExamples true false cexData6).toOption.map
        (fun exs => exs.map fun e => (e.qasId, e.exampleId)) =
      some [(['q', '2'], 0)] ∧ (0 : Nat) ≠ 1 :=
  ⟨by decide, by decide⟩

/-- The single example kept from `cexData6`. -/
def keptExample6 : SquadExample :=
  { qasId := ['q', '2'], questionText := ['w'], docTokens := [['a', 'b']],
    exampleId := 0, origAnswerText := some ['a', 'b'],
    startPosition := some 0, endPosition := some 0, isImpossible := false }

/-- Claim C6 witness: the amended density property on the concrete read
of `cexData6`. -/
theorem sequence_id_dense_over_kept_witness : keptExample6.exampleId = 0 :=
  sequence_id_dense_over_kept true false cexData6 [keptExample6] (by decide)
    0 keptExample6 (by decide)

theorem appendToLast_length : ∀ (toks : List (List Char)) (c : Char),
    toks.length ≤ (appendToLast toks c).length := by
  intro toks c
  induction toks with
  | nil => simp [appendToLast]
  | cons t ts ih =>
    cases ts with
    | nil => simp [appendToLast]
    | cons t2 ts2 =>
      simp only [appendToLast, List.length_cons]
      simp only [List.length_cons] at ih
      omega

/-- The word list only grows as the segmenter consumes characters. -/
theorem segmentAux_len_mono : ∀ (cs : List Char) (toks : List (List Char)) (prev : Bool),
    toks.length ≤ (segmentAux cs toks prev).1.length := by
  intro cs
  induction cs with
  | nil => intro toks prev; simp [segmentAux]
  | cons c cs ih =>
    intro toks prev
    simp only [segmentAux]
    by_cases hws : is_whitespace c = true
    · rw [if_pos hws]
      exact ih toks true
    · rw [if_neg hws]
      dsimp only
      refine le_trans ?_ (ih _ false)
      by_cases hprev : prev = true
      · rw [if_pos hprev]; simp
      · rw [if_neg hprev]; exact appendToLast_length toks c

/-- Every `char_to_word_offset` entry is at least the current word count
minus one (so at least `-1`). -/
theorem segmentAux_lower : ∀ (cs : List Char) (toks : List (List Char)) (prev : Bool)
    (k : Nat) (v : Int), (segmentAux cs toks prev).2.get? k = some v →
    (toks.length : Int) - 1 ≤ v := by
  intro cs
  induction cs with
  | nil => intro toks prev k v h; simp [segmentAux] at h
  | cons c cs ih =>
    intro toks prev k v h
    simp only [segmentAux] at h
    by_cases hws : is_whitespace c = true
    · rw [if_pos hws] at h
      dsimp only at h
      cases k with
      | zero =>
        simp only [List.get?] at h
        injection h with h
        omega
      | succ k' =>
        simp only [List.get?] at h
        exact ih toks true k' v h
    · rw [if_neg hws] at h
      dsimp only at h
      have hgrow : toks.length ≤
          (if prev = true then toks ++ [[c]] else appendToLast toks c).length := by
        by_cases hprev : prev = true
        · rw [if_pos hprev]; simp
        · rw [if_neg hprev]; exact appendToLast_length toks c
      cases k with
      | zero =>
        simp only [List.get?] at h
        injection h with h
        omega
      | succ k' =>
        simp only [List.get?] at h
        have := ih _ false k' v h
        omega

/-- `char_to_word_offset` is nondecreasing. -/
theorem segmentAux_mono : ∀ (cs : List Char) (toks : List (List Char)) (prev : Bool)
    (i j : Nat) (vi vj : Int), i ≤ j →
    (segmentAux cs toks prev).2.get? i = some vi →
    (segmentAux cs toks prev).2.get? j = some vj → vi ≤ vj := by
  intro cs
  induction cs with
  | nil => intro toks prev i j vi vj hij h1 h2; simp [segmentAux] at h1
  | cons c cs ih =>
    intro toks prev i j vi vj hij h1 h2
    simp only [segmentAux] at h1 h2
    by_cases hws : is_whitespace c = true
    · rw [if_pos hws] at h1 h2
      dsimp only at h1 h2
      cases i with
      | zero =>
        simp only [List.get?] at h1
        injection h1 with h1
        cases j with
        | zero =>
          simp only [List.get?] at h2
          injection h2 with h2
          omega
        | succ j' =>
          simp only [List.get?] at h2
          have := segmentAux_lower cs toks true j' vj h2
          omega
      | succ i' =>
        cases j with
        | zero => omega
        | succ j' =>
          simp only [List.get?] at h1 h2
          exact ih toks true i' j' vi vj (by omega) h1 h2
    · rw [if_neg hws] at h1 h2
      dsimp only at h1 h2
      cases i with
      | zero =>
        simp only [List.get?] at h1
        injection h1 with h1
        cases j with
        | zero =>
          simp only [List.get?] at h2
          injection h2 with h2
          omega
        | succ j' =>
          simp only [List.get?] at h2
          have := segmentAux_lower cs _ false j' vj h2
          omega
      | succ i' =>
        cases j with
        | zero => omega
        | succ j' =>
          simp only [List.get?] at h1 h2
          exact ih _ false i' j' vi vj (by omega) h1 h2

/-- Every `char_to_word_offset` entry is below the final word count. -/
theorem segmentAux_upper : ∀ (cs : List Char) (toks : List (List Char)) (prev : Bool)
    (k : Nat) (v : Int), (segmentAux cs toks prev).2.get? k = some v →
    v ≤ ((segmentAux cs toks prev).1.length : Int) - 1 := by
  intro cs
  induction cs with
  | nil => intro toks prev k v h; simp [segmentAux] at h
  | cons c cs ih =>
    intro toks prev k v h
    simp only [segmentAux] at h ⊢
    by_cases hws : is_whitespace c = true
    · rw [if_pos hws] at h ⊢
      dsimp only at h ⊢
      cases k with
      | zero =>
        simp only [List.get?] at h
        injection h with h
        have := segmentAux_len_mono cs toks true
        omega
      | succ k' =>
        simp only [List.get?] at h
        exact ih toks true k' v h
    · rw [if_neg hws] at h ⊢
      dsimp only at h ⊢
      cases k with
      | zero =>
        simp only [List.get?] at h
        injection h with h
        have := segmentAux_len_mono cs
          (if prev = true then toks ++ [[c]] else appendToLast toks c) false
        omega
      | succ k' =>
        simp only [List.get?] at h
        exact ih _ false k' v h

/-- The word-span invariant of the spec's data model (§3). -/
def WordSpanOK (e : SquadExample) : Prop :=
  e.isImpossible = false →
    ∃ sp ep, e.startPosition = some sp ∧ e.endPosition = some ep ∧
      0 ≤ sp ∧ sp ≤ ep ∧ ep < (e.docTokens.length : Int)

theorem readQAs_word_span (v2 : Bool) (ctx : List Char) :
    ∀ (qas : List RawQA) (n : Nat) (acc : List SquadExample) res,
      readQAs true v2 (segmentText ctx).1 (segmentText ctx).2 qas n acc =
        Except.ok res →
      (∀ qa ∈ qas, ∀ a ∈ qa.answers, a.1 ≠ [] ∧ 0 ≤ a.2 ∧
        (∀ v, pyGet (segmentText ctx).2 a.2 = some v → 0 ≤ v)) →
      (∀ e ∈ acc, WordSpanOK e) →
      ∀ e ∈ res.2, WordSpanOK e := by
  intro qas
  induction qas with
  | nil =>
    intro n acc res h _ hacc
    simp only [readQAs] at h
    cases h
    exact hacc
  | cons qa rest ih =>
    intro n acc res h hqas hacc
    have hqas' : ∀ qa' ∈ rest, ∀ a ∈ qa'.answers, a.1 ≠ [] ∧ 0 ≤ a.2 ∧
        (∀ v, pyGet (segmentText ctx).2 a.2 = some v → 0 ≤ v) :=
      fun qa' hqa' => hqas qa' (List.mem_cons_of_mem _ hqa')
    simp only [readQAs] at h
    rw [if_true] at h
    by_cases hval : qa.answers.length ≠ 1 ∧ ¬(if v2 then qa.isImpossible else false) = true
    · rw [if_pos hval] at h
      exact Except.noConfusion h
    · rw [if_neg hval] at h
      by_cases himp : (if v2 then qa.isImpossible else false) = false
      · rw [if_pos himp] at h
        cases hhd : qa.answers.head? with
        | none => rw [hhd] at h; exact Except.noConfusion h
        | some answer =>
          rw [hhd] at h
          dsimp only at h
          have hansmem : answer ∈ qa.answers :=
            List.mem_of_mem_head? (by rw [hhd]; rfl)
          obtain ⟨hne, ho0, hv0⟩ := hqas qa (List.mem_cons_self qa rest) answer hansmem
          cases hg1 : pyGet (segmentText ctx).2 answer.2 with
          | none =>
            rw [hg1] at h
            dsimp only at h
            exact Except.noConfusion h
          | some startPos =>
            cases hg2 : pyGet (segmentText ctx).2
                (answer.2 + (answer.1.length : Int) - 1) with
            | none =>
              rw [hg1, hg2] at h
              dsimp only at h
              exact Except.noConfusion h
            | some endPos =>
              rw [hg1, hg2] at h
              dsimp only at h
              have hlen1 : 1 ≤ answer.1.length := by
                cases hx : answer.1
                · exact absurd hx hne
                · simp [hx]
              have hsp0 : 0 ≤ startPos := hv0 startPos hg1
              have hg1' : (segmentText ctx).2.get? answer.2.toNat = some startPos := by
                rw [← pyGet_nonneg _ _ ho0]; exact hg1
              have hg2' : (segmentText ctx).2.get?
                  (answer.2 + (answer.1.length : Int) - 1).toNat = some endPos := by
                rw [← pyGet_nonneg _ _ (by omega : (0:Int) ≤ answer.2 + (answer.1.length : Int) - 1)]
                exact hg2
              have hmono : startPos ≤ endPos := by
                refine segmentAux_mono ctx [] true answer.2.toNat
                  (answer.2 + (answer.1.length : Int) - 1).toNat startPos endPos
                  (by omega) hg1' hg2'
              have hupper : endPos ≤ (((segmentText ctx).1.length : Int)) - 1 :=
                segmentAux_upper ctx [] true _ endPos hg2'
              by_cases hdrop : pyContainsSub
                  (joinWords (whitespace_tokenize answer.1))
                  (joinWords (pySlice (segmentText ctx).1 startPos (endPos + 1))) = false
              · rw [if_pos hdrop] at h
                exact ih n acc res h hqas' hacc
              · rw [if_neg hdrop] at h
                refine ih (n + 1) _ res h hqas' ?_
                intro e he
                rcases List.mem_append.mp he with hmem | hmem
                · exact hacc e hmem
                · rw [List.mem_singleton] at hmem
                  subst hmem
                  intro _
                  exact ⟨startPos, endPos, rfl, rfl, hsp0, hmono, by
                    dsimp only
                    omega⟩
      · rw [if_neg himp] at h
        refine ih (n + 1) _ res h hqas' ?_
        intro e he
        rcases List.mem_append.mp he with hmem | hmem
        · exact hacc e hmem
        · rw [List.mem_singleton] at hmem
          subst hmem
          intro habs
          dsimp only at habs
          rw [habs] at himp
          exact absurd rfl himp

theorem readParas_word_span (v2 : Bool) :
    ∀ (paras : List RawParagraph) (n : Nat) (acc : List SquadExample) res,
      readParas true v2 paras n acc = Except.ok res →
      (∀ p ∈ paras, ∀ qa ∈ p.qas, ∀ a ∈ qa.answers, a.1 ≠ [] ∧ 0 ≤ a.2 ∧
        (∀ v, pyGet (segmentText p.context).2 a.2 = some v → 0 ≤ v)) →
      (∀ e ∈ acc, WordSpanOK e) →
      ∀ e ∈ res.2, WordSpanOK e := by
  intro paras
  induction paras with
  | nil =>
    intro n acc res h _ hacc
    simp only [readParas] at h
    cases h
    exact hacc
  | cons p rest ih =>
    intro n acc res h hdata hacc
    simp only [readParas] at h
    cases hq : readQAs true v2 (segmentText p.context).1 (segmentText p.context).2
        p.qas n acc with
    | error m => rw [hq] at h; exact Except.noConfusion h
    | ok r =>
      rw [hq] at h
      have hmid := readQAs_word_span v2 p.context p.qas n acc r hq
        (hdata p (List.mem_cons_self p rest)) hacc
      exact ih r.1 r.2 res h
        (fun p' hp' => hdata p' (List.mem_cons_of_mem _ hp')) hmid

/-- Claim C8 (amended): in training mode, every built Example that is not
impossible has `0 ≤ start_word ≤ end_word < len(doc_tokens)` — provided
each answer has nonempty text, a nonnegative `answer_start`, and a start
character that does not fall in the whitespace before the paragraph's
first word (its `char_to_word_offset` entry is ≥ 0). -/
theorem word_span_invariant (v2 : Bool) (data : List RawParagraph)
    (exs : List SquadExample)
    (hAns : ∀ p ∈ data, ∀ qa ∈ p.qas, ∀ a ∈ qa.answers, a.1 ≠ [] ∧ 0 ≤ a.2 ∧
      (∀ v, pyGet (segmentText p.context).2 a.2 = some v → 0 ≤ v))
    (h : readExamples true v2 data = Except.ok exs) :
    ∀ e ∈ exs, e.isImpossible = false →
      ∃ sp ep, e.startPosition = some sp ∧ e.endPosition = some ep ∧
        0 ≤ sp ∧ sp ≤ ep ∧ ep < (e.docTokens.length : Int) := by
  rw [readExamples] at h
  cases hp : readParas true v2 data 0 [] with
  | error m => rw [hp] at h; exact Except.noConfusion h
  | ok r =>
    rw [hp] at h
    injection h with h
    subst h
    exact readParas_word_span v2 data 0 [] r hp hAns (by intro e he; simp at he)

/-- A paragraph whose context starts with whitespace and whose answer
text starts at that whitespace. -/
def cexData8 : List RawParagraph :=
  [{ context := [' ', 'a'],
     qas := [{ qasId := ['q'], question := ['w'],
               answers := [([' ', 'a'], 0)], isImpossible := false }] }]

/-- Claim C8 counterexample: on `cexData8` the answer-start offset 0 maps
to `char_to_word_offset[0] = -1` (leading whitespace), the recoverability
check still passes (Python slice `[-1:1]` wraps), and the built example
has `start_word = -1 < 0`, refuting the claim as stated. -/
theorem word_span_counterexample :
    (readExamples true false cexData8).toOption.map
        (fun exs => exs.map fun e => (e.startPosition, e.endPosition, e.isImpossible)) =
      some [(some (-1), some 0, false)] ∧ ¬((0 : Int) ≤ -1) :=
  ⟨by decide, by decide⟩

/-- A well-formed single-question input for the claim C8 witness. -/
def witnessData8 : List RawParagraph :=
  [{ context := ['a', 'b'],
     qas := [{ qasId := ['q'], question := ['w'],
               answers := [(['a', 'b'], 0)], isImpossible := false }] }]

/-- The single example built from `witnessData8`. -/
def keptExample8 : SquadExample :=
  { qasId := ['q'], questionText := ['w'], docTokens := [['a', 'b']],
    exampleId := 0, origAnswerText := some ['a', 'b'],
    startPosition := some 0, endPosition := some 0, isImpossible := false }

/-- Claim C8 witness: the amended invariant on the concrete read of
`witnessData8`, whose single kept example has word span `[0, 0]` over one
document word. -/
theorem word_span_invariant_witness :
    ∃ sp ep, keptExample8.startPosition = some sp ∧
      keptExample8.endPosition = some ep ∧
      0 ≤ sp ∧ sp ≤ ep ∧ ep < (keptExample8.docTokens.length : Int) :=
  word_span_invariant false witnessData8 [keptExample8]
    (by
      intro p hp qa hqa a ha
      fin_cases hp
      fin_cases hqa
      fin_cases ha
      refine ⟨by decide, by decide, ?_⟩
      intro v hv
      have hd : pyGet (segmentText ['a', 'b']).2 0 = some 0 := by decide
      rw [hd] at hv
      injection hv with hv
      omega)
    (by decide)
    keptExample8 (by decide) (by decide)

end SquadData
